import Mathlib

/-!
Shallow embedding of the ISAT binary partition tree of the TDAC repository
(src/chemistryModelPolimi/tabulation/ISAT/binaryTree/binaryTree.C, class
Foam::binaryTree, together with the node type of binaryNode.H).

Modelling conventions:
* OpenFOAM `scalar` (double) is modelled by `ℚ`; `label` (int) by `ℕ`, or by
  `ℤ` where the code relies on the value -1 (balance's maxDir/minId/maxId).
* C++ heap pointers are modelled by a value tree: `bn` has a `nil`
  constructor standing for the NULL pointer, and the two element slots are
  `Option chP` (none = NULL).  Heap addresses of nodes and leaves are
  modelled by `ℕ` identifiers handed out by an allocation counter carried in
  the tree state; the leaf field `nodeRef` models the `node_` back-pointer
  of chemPointISAT (it stores the identifier of the owning node).
* The code navigates with parent back-pointers (`node()->parent()`); the
  embedding locates the same nodes from the root (by leaf identifier), which
  coincides with the pointer navigation whenever the back-pointer invariant
  of the tree holds.
* Dereferencing NULL is undefined behaviour in the source; the embedding
  returns an (explicitly marked) junk value in those branches, and the
  theorems carry the well-formedness hypotheses that exclude them.
-/

/-- `GREAT` of OpenFOAM's scalar.H (1.0e+15), the initial running minimum of
the extreme-leaf scan in `balance()`. -/
def GREAT : ℚ := 10 ^ 15

/-- The dot-product loop `for (label i=0; i<phiq.size(); i++) vPhi += phiq[i]*v[i];`
used by `binaryTreeSearch` and `inSubTree` (both fields have size nEqns). -/
def dotp (phiq v : List ℚ) : ℚ := (List.zipWith (· * ·) phiq v).sum

/-- The payload of a stored chemPoint (chemPointISAT) that the tree claims
refer to: composition `phi`, mapping `Rphi`, Jacobian `A` and EOA matrix `L`.
The chemPoint constructor lives in chemPointISAT.C, which is not under src/
(only the header is); the tree-level operations treat the constructed data
as given, so the embedding passes it around as a record. -/
structure LeafData where
  phi : List ℚ
  Rphi : List ℚ
  A : List (List ℚ)
  L : List (List ℚ)
deriving DecidableEq, Repr, Inhabited

/-- A stored chemPoint (leaf).  `id` models its heap address, `nodeRef`
models the `node_` back-pointer (the address of the binaryNode owning it). -/
structure chP where
  id : ℕ
  nodeRef : ℕ
  phi : List ℚ
  Rphi : List ℚ
  A : List (List ℚ)
  L : List (List ℚ)
deriving DecidableEq, Repr, Inhabited

/-- The per-leaf data of a chemPoint, forgetting its tree back-pointer. -/
def ldata (c : chP) : LeafData := ⟨c.phi, c.Rphi, c.A, c.L⟩

/-- A chemPoint with its back-pointer blanked: two leaves are "the same
object with the same stored fields" iff their `stripRef` images agree. -/
def stripRef (c : chP) : chP := { c with nodeRef := 0 }

/-- A binaryNode (binaryNode.H).  `nil` is the NULL pointer; `mk` carries the
node address `nid`, hyperplane `v`,`a`, the element slots `eL`,`eR`
(elementLeft_/elementRight_) and the child pointers `l`,`r` (left_/right_).
The parent_ pointer is not stored: the embedding recovers parents from the
root, which matches the pointer structure under the tree invariants. -/
inductive bn where
  | nil
  | mk (nid : ℕ) (v : List ℚ) (a : ℚ) (eL eR : Option chP) (l r : bn)
deriving DecidableEq, Repr, Inhabited

namespace bn

def isNil : bn → Bool
  | nil => true
  | mk _ _ _ _ _ _ _ => false

def nid : bn → ℕ
  | nil => 0
  | mk n _ _ _ _ _ _ => n

def v : bn → List ℚ
  | nil => []
  | mk _ vv _ _ _ _ _ => vv

def a : bn → ℚ
  | nil => 0
  | mk _ _ aa _ _ _ _ => aa

def eL : bn → Option chP
  | nil => none
  | mk _ _ _ e _ _ _ => e

def eR : bn → Option chP
  | nil => none
  | mk _ _ _ _ e _ _ => e

def l : bn → bn
  | nil => nil
  | mk _ _ _ _ _ c _ => c

def r : bn → bn
  | nil => nil
  | mk _ _ _ _ _ _ c => c

end bn

/-- Modelled from the spec: the binaryNode constructor computes the
hyperplane via `calcV`/`calcA`, whose bodies are in binaryNode.C, which is
not under src/.  Following binaryNode.H and spec section 3:
v = L·Lᵀ·(φ_R − φ_L) with L the left leaf's EOA matrix (not normalised). -/
def calcV (pl pr : chP) : List ℚ :=
  let d := List.zipWith (· - ·) pr.phi pl.phi
  pl.L.map (fun row => dotp row (pl.L.transpose.map (fun col => dotp col d)))

/-- Modelled from the spec: a = vᵀ·(φ_L + φ_R)/2 (binaryNode.H, spec §3);
binaryNode.C is not under src/. -/
def calcA (pl pr : chP) : ℚ :=
  dotp (calcV pl pr) (List.zipWith (fun x y => (x + y) / 2) pl.phi pr.phi)

/-- `new bn(elementLeft, elementRight, parent)` followed by the two
back-pointer assignments `elementLeft->node() = newNode;
elementRight->node() = newNode;` that every call site of the constructor
performs (binaryTree.C lines 130/140-141, 717-720, 745-748).  `nid` is the
fresh address of the node. -/
def mkNode (nid : ℕ) (pl pr : chP) : bn :=
  bn.mk nid (calcV pl pr) (calcA pl pr)
    (some { pl with nodeRef := nid }) (some { pr with nodeRef := nid }) bn.nil bn.nil

/-- `new bn()`: the empty placeholder node (no hyperplane, all slots NULL). -/
def emptyNode (nid : ℕ) : bn := bn.mk nid [] 0 none none bn.nil bn.nil

/-- The tree state: `root_`, `size_`, and the allocation counter modelling
the heap (fresh addresses for `new` nodes/leaves). -/
structure BTree where
  root : bn
  size : ℕ
  next : ℕ
deriving DecidableEq, Repr

/-- binaryTreeSearch's node-walk (binaryTree.C lines 180-208): compute
v·phi_q; if > a go right (descend if the right child exists, else return the
right element slot), otherwise the same on the left. -/
def binaryTreeSearchB (phiq : List ℚ) : bn → Option chP
  | bn.nil => none
  | bn.mk _ v a eL eR l r =>
    if dotp phiq v > a then
      if r.isNil then eR else binaryTreeSearchB phiq r
    else
      if l.isNil then eL else binaryTreeSearchB phiq l

/-- binaryTreeSearch (binaryTree.C lines 176-219), as called on the root:
size > 1 walks the hyperplanes from the root; size = 1 returns the root's
left element; size = 0 returns NULL. -/
def binaryTreeSearch (t : BTree) (phiq : List ℚ) : Option chP :=
  if 1 < t.size then binaryTreeSearchB phiq t.root
  else if t.size = 1 then t.root.eL
  else none

/-- A fresh chemPoint built by `new chP(chemistry_, phiq, Rphiq, A, ...)`;
`lid` is its heap address and `nid` the node stored in its back-pointer
(the constructor takes the node for the size-0 branch; otherwise the
call site assigns `newChemPoint->node() = newNode` right after). -/
def mkChP (lid nid : ℕ) (d : LeafData) : chP :=
  ⟨lid, nid, d.phi, d.Rphi, d.A, d.L⟩

/-- In-order list of the leaves stored in a (sub)tree.  This is the
enumeration the `treeMin`/`treeSuccessor` walk of `balance()` produces
(binaryTree.C lines 622-632 and 759-822): left-most leaf first, each
node contributing its left side (subtree or element slot) before its
right side. -/
def leafListB : bn → List chP
  | bn.nil => []
  | bn.mk _ _ _ eL eR l r =>
    (if l.isNil then eL.toList else leafListB l) ++
    (if r.isNil then eR.toList else leafListB r)

/-- `treeMin` (binaryTree.C lines 759-775): descend `left()` until NULL and
return that node's left element. -/
def treeMin : bn → Option chP
  | bn.nil => none
  | bn.mk _ _ _ eL _ l _ => if l.isNil then eL else treeMin l

/-- The primary-search splice of `insertNewLeaf` for size > 1 with
phi0 == NULL (binaryTree.C lines 110-131): walk exactly as
`binaryTreeSearch` and, at the slot the search returns, put a
`new bn(phi0, newChemPoint, parentNode)` in place of the leaf
(`insertNode`: the element slot is cleared and the child pointer set),
then update both leaves' back-pointers.  `nid` is the new node's address,
`newL` the new chemPoint.  The branch where the search reaches an empty
slot dereferences NULL in the source; the embedding leaves the tree
unchanged there (junk branch, excluded by well-formedness). -/
def insertAtSearchB (phiq : List ℚ) (nid : ℕ) (newL : chP) : bn → bn
  | bn.nil => bn.nil
  | bn.mk id v a eL eR l r =>
    if dotp phiq v > a then
      if r.isNil then
        match eR with
        | some p => bn.mk id v a eL none l (mkNode nid p newL)
        | none => bn.mk id v a eL eR l r
      else bn.mk id v a eL eR l (insertAtSearchB phiq nid newL r)
    else
      if l.isNil then
        match eL with
        | some p => bn.mk id v a none eR (mkNode nid p newL) r
        | none => bn.mk id v a eL eR l r
      else bn.mk id v a eL eR (insertAtSearchB phiq nid newL l) r

/-- The splice of `insertNewLeaf`/`insertNode` when the caller supplies
phi0 (binaryTree.C lines 117, 127-131, 151-168): the code goes straight to
`phi0->node()` through the back-pointer and replaces phi0's slot
(`insertNode` tests the right slot first) by the new node.  The embedding
locates that node from the root by phi0's identifier, which coincides with
the pointer navigation under the back-pointer invariant; it returns `none`
when no slot holds the identifier. -/
def spliceByIdB (pid nid : ℕ) (newL : chP) : bn → Option bn
  | bn.nil => none
  | bn.mk id v a eL eR l r =>
    if eR.map chP.id = some pid then
      match eR with
      | some p => some (bn.mk id v a eL none l (mkNode nid p newL))
      | none => none
    else if eL.map chP.id = some pid then
      match eL with
      | some p => some (bn.mk id v a none eR (mkNode nid p newL) r)
      | none => none
    else
      match spliceByIdB pid nid newL l with
      | some l' => some (bn.mk id v a eL eR l' r)
      | none =>
        match spliceByIdB pid nid newL r with
        | some r' => some (bn.mk id v a eL eR l r')
        | none => none

/-- `insertNewLeaf` (binaryTree.C lines 85-145).  `d` is the data of the
new chemPoint (phiq, Rphiq, A and the EOA matrix the chemPoint constructor
builds from them), `phi0` the optional reference leaf.  Fresh addresses:
the new node gets `t.next`, the new chemPoint `t.next + 1`. -/
def insertNewLeaf (t : BTree) (d : LeafData) (phi0 : Option chP) : BTree :=
  if t.size = 0 then
    { root := bn.mk t.next [] 0 (some (mkChP (t.next + 1) t.next d)) none bn.nil bn.nil,
      size := t.size + 1, next := t.next + 2 }
  else
    let p0 : Option chP := match phi0 with
      | some p => some p
      | none => binaryTreeSearch t d.phi
    match p0 with
    | none => { t with size := t.size + 1 }
    | some p =>
      let newCP := mkChP (t.next + 1) t.next d
      if 1 < t.size then
        let r' := match phi0 with
          | none => insertAtSearchB d.phi t.next newCP t.root
          | some q => (spliceByIdB q.id t.next newCP t.root).getD t.root
        { root := r', size := t.size + 1, next := t.next + 2 }
      else
        { root := mkNode t.next p newCP, size := t.size + 1, next := t.next + 2 }

/-- Does a node hold the leaf with identifier `x` in one of its element
slots?  (Pointer comparisons `x == z->elementLeft()` etc. of the source.) -/
def holdsLeaf (x : ℕ) : bn → Bool
  | bn.nil => false
  | bn.mk _ _ _ eL eR _ _ =>
    (eL.map chP.id = some x) || (eR.map chP.id = some x)

/-- `deleteLeaf`'s handling of the node `z = x->node()` seen from its
parent (binaryTree.C lines 253-287): given the child node `c` (= z) that
holds `x`, return the (element, child) pair that replaces `c`'s side of the
parent `pid`.  Sibling chemPoint → promote it into the parent's slot and
point it at the parent (`chemPSibling`, lines 266-277); otherwise
transplant the sibling node into the parent's slot (`nodeSibling` +
`transplant`, lines 279-283, 293-313). -/
def delChild (x pid : ℕ) (c : bn) : Option chP × bn :=
  match c with
  | bn.nil => (none, bn.nil)
  | bn.mk _ _ _ eL eR l r =>
    if eL.map chP.id = some x then
      match eR with
      | some sib => (some { sib with nodeRef := pid }, bn.nil)
      | none => (none, r)
    else
      match eL with
      | some sib => (some { sib with nodeRef := pid }, bn.nil)
      | none => (none, l)

/-- The non-root part of `deleteLeaf` for size > 1: find the node whose
child holds `x` (the code reaches it directly through `x->node()` and
`z->parent()`; the embedding walks from the root, which coincides under
the back-pointer invariant) and rewrite that side per `delChild`. -/
def delRec (x : ℕ) : bn → bn
  | bn.nil => bn.nil
  | bn.mk id v a eL eR l r =>
    if holdsLeaf x l then
      let s := delChild x id l
      bn.mk id v a s.1 eR s.2 r
    else if holdsLeaf x r then
      let s := delChild x id r
      bn.mk id v a eL s.1 l s.2
    else
      bn.mk id v a eL eR (delRec x l) (delRec x r)

/-- `deleteLeaf(x)` (binaryTree.C lines 243-289).  size 1 frees the leaf
and the root (`deleteDemandDrivenData` also NULLs the pointer); size > 1
with `x` held by the root handles `z->parent() == NULL` (new placeholder
root for a leaf sibling — allocated at `t.next` — or transplant to root for
a node sibling); otherwise the rewrite happens at `z`'s parent.  `size_--`
runs in every branch. -/
def deleteLeaf (t : BTree) (x : chP) : BTree :=
  if t.size = 1 then
    { root := bn.nil, size := t.size - 1, next := t.next }
  else if 1 < t.size then
    if holdsLeaf x.id t.root then
      if t.root.eL.map chP.id = some x.id then
        match t.root.eR with
        | some sib =>
          { root := bn.mk t.next [] 0 (some { sib with nodeRef := t.next }) none bn.nil bn.nil,
            size := t.size - 1, next := t.next + 1 }
        | none => { root := t.root.r, size := t.size - 1, next := t.next }
      else
        match t.root.eL with
        | some sib =>
          { root := bn.mk t.next [] 0 (some { sib with nodeRef := t.next }) none bn.nil bn.nil,
            size := t.size - 1, next := t.next + 1 }
        | none => { root := t.root.l, size := t.size - 1, next := t.next }
    else
      { root := delRec x.id t.root, size := t.size - 1, next := t.next }
  else
    { t with size := t.size - 1 }

/-- `clear()` (binaryTree.C lines 317-329): `deleteSubTree` frees every
chemPoint and node reachable from the root (value semantics: they are
dropped), the root is reset to NULL and the size to 0. -/
def clear (t : BTree) : BTree :=
  { root := bn.nil, size := 0, next := t.next }

/-- Result bundle of the secondary search functions: the returned Bool,
the member `n2ndSearch_` after the call, the number of `inEOA` evaluations
performed, and the out-parameter `x` (a reference in the source). -/
structure SRes where
  found : Bool
  n2 : ℕ
  tests : ℕ
  x : Option chP
deriving DecidableEq, Repr

/-- `x->inEOA(phiq)` where `x` may be a NULL element slot (dereferencing
NULL is UB in the source; the embedding returns false there). -/
def optE (E : chP → List ℚ → Bool) (x : Option chP) (phiq : List ℚ) : Bool :=
  match x with
  | some c => E c phiq
  | none => false

/-- `inSubTree` (binaryTree.C lines 428-512) on a non-NULL node.  `E` is
the chemPoint predicate `inEOA` (declared in chemPointISAT.H; its body is
in chemPointISAT.C, not under src/, so it is a parameter).  `mx` is
`max2ndSearch_`; the counter `n` is `n2ndSearch_` threaded through the
call; `tc` counts the `inEOA` evaluations; `x` is the out-parameter. -/
def inSubTreeB (E : chP → List ℚ → Bool) (mx : ℕ) (phiq : List ℚ) :
    bn → ℕ → ℕ → Option chP → SRes
  | bn.nil, n, tc, x => ⟨false, n, tc, x⟩
  | bn.mk _ v a eL eR l r, n, tc, x =>
    if n < mx then
      if dotp phiq v ≤ a then
        let s1 : SRes :=
          if l.isNil then ⟨optE E eL phiq, n + 1, tc + 1, eL⟩
          else inSubTreeB E mx phiq l n tc x
        if s1.found then s1
        else
          if r.isNil then
            if s1.n2 < mx then ⟨optE E eR phiq, s1.n2 + 1, s1.tests + 1, eR⟩
            else ⟨false, s1.n2, s1.tests, s1.x⟩
          else inSubTreeB E mx phiq r s1.n2 s1.tests s1.x
      else
        let s1 : SRes :=
          if r.isNil then ⟨optE E eR phiq, n + 1, tc + 1, eR⟩
          else inSubTreeB E mx phiq r n tc x
        if s1.found then s1
        else
          if l.isNil then
            if s1.n2 < mx then ⟨optE E eL phiq, s1.n2 + 1, s1.tests + 1, eL⟩
            else ⟨false, s1.n2, s1.tests, s1.x⟩
          else inSubTreeB E mx phiq l s1.n2 s1.tests s1.x
    else ⟨false, n, tc, x⟩

/-- `inSubTree` on a possibly-NULL node pointer (the source is called with
`nodeSibling(...)` and recursively with `y->left()`/`y->right()`). -/
def inSubTree (E : chP → List ℚ → Bool) (mx : ℕ) (phiq : List ℚ)
    (y : bn) (n tc : ℕ) (x : Option chP) : SRes :=
  if y.isNil then ⟨false, n, tc, x⟩ else inSubTreeB E mx phiq y n tc x

/-- The chain of "other sides" seen when walking up from the leaf with
identifier `x` to the root: the first entry is the sibling side within
`x->node()` (`chemPSibling(x)`/`nodeSibling(x)`, binaryTree.C lines
378-391, 538-561, 584-606), the following entries are the sibling sides at
each ancestor (`chemPSibling(y)`/`nodeSibling(y)` for `y` walking up,
lines 392-410).  Each entry is the (element slot, child pointer) pair of
the side not containing `x`.  `none` when the leaf is not in the tree
(the source would follow a dangling back-pointer). -/
def upChain (x : ℕ) : bn → Option (List (Option chP × bn))
  | bn.nil => none
  | bn.mk _ _ _ eL eR l r =>
    if eL.map chP.id = some x then some [(eR, r)]
    else if eR.map chP.id = some x then some [(eL, l)]
    else
      match upChain x l with
      | some ch => some (ch ++ [(eR, r)])
      | none =>
        match upChain x r with
        | some ch => some (ch ++ [(eL, l)])
        | none => none

/-- The `while((y->parent()!=NULL) && (n2ndSearch_ < max2ndSearch_))` loop
of `secondaryBTSearch` (binaryTree.C lines 393-410), iterating over the
remaining up-chain entries: a sibling chemPoint is inEOA-tested (counter
incremented), a sibling node is searched with `inSubTree`. -/
def secondaryLoop (E : chP → List ℚ → Bool) (mx : ℕ) (phiq : List ℚ) :
    List (Option chP × bn) → ℕ → ℕ → Option chP → SRes
  | [], n, tc, x => ⟨false, n, tc, x⟩
  | (es, ns) :: rest, n, tc, x =>
    if n < mx then
      match es with
      | some xS =>
        if E xS phiq then ⟨true, n + 1, tc + 1, some xS⟩
        else secondaryLoop E mx phiq rest (n + 1) (tc + 1) x
      | none =>
        let s := inSubTree E mx phiq ns n tc x
        if s.found then s
        else secondaryLoop E mx phiq rest s.n2 s.tests s.x
    else ⟨false, n, tc, x⟩

/-- Whether a (possibly NULL) node pointer is the node with identifier
`nid` (pointer identity, modelled through the allocation identifier). -/
def isNodeId (nid : ℕ) : bn → Bool
  | bn.nil => false
  | bn.mk nid2 _ _ _ _ _ _ => nid2 == nid

/-- The chain of "other sides" seen when walking the parent pointers up
from the NODE with identifier `nid` (the `xS = chemPSibling(y)` /
`nodeSibling(y)` / `y = y->parent()` steps of the while loop, binaryTree.C
lines 393-410): the first entry is the sibling side of that node within its
parent, the following entries walk up to the root.  `none` when no node of
the tree has the identifier (the source would follow a dangling pointer). -/
def nodeUpChain (nid : ℕ) : bn → Option (List (Option chP × bn))
  | bn.nil => none
  | bn.mk _ _ _ eL eR l r =>
    if isNodeId nid l then some [(eR, r)]
    else if isNodeId nid r then some [(eL, l)]
    else
      match nodeUpChain nid l with
      | some ch => some (ch ++ [(eR, r)])
      | none =>
        match nodeUpChain nid r with
        | some ch => some (ch ++ [(eL, l)])
        | none => none

/-- The entries visited by the `while((y->parent()!=NULL) && ...)` loop of
`secondaryBTSearch` when it starts from `bn* y = x->node()` (binaryTree.C
line 392): the root has no parent, so its chain is empty. -/
def chainFromNode (nid : ℕ) (root : bn) : Option (List (Option chP × bn)) :=
  if isNodeId nid root then some [] else nodeUpChain nid root

/-- `secondaryBTSearch(phiq, x)` (binaryTree.C lines 368-421):
`n2ndSearch_ = 0` at entry; under the guard `0 < max2ndSearch_ && size_ > 1`
the sibling of `x` is tested first (lines 378-390).  The ancestor walk then
starts from `bn* y = x->node()` (line 392): when the first step was a
failed `inSubTree`, the out-parameter `x` has been reassigned inside the
searched subtree, so the walk resumes from the clobbered leaf's node, not
from the original leaf's (pointer navigation through the back-pointer is
modelled by locating the node with that identifier from the root, which
coincides with it under the back-pointer invariant; a clobbered NULL slot
or dangling identifier is the junk branch, excluded by well-formedness).
When the first step tested a leaf sibling, `x` is untouched and the walk
is the original leaf's remaining up-chain.  Returns the result bundle
(`x` unchanged on the paths that do not assign it). -/
def secondaryBTSearch (E : chP → List ℚ → Bool) (mx : ℕ) (t : BTree)
    (phiq : List ℚ) (x : chP) : SRes :=
  if 0 < mx ∧ 1 < t.size then
    match upChain x.id t.root with
    | some ((es, ns) :: rest) =>
      (match es with
       | some xS =>
         if E xS phiq then ⟨true, 1, 1, some xS⟩
         else secondaryLoop E mx phiq rest 1 1 (some x)
       | none =>
         let s := inSubTree E mx phiq ns 0 0 (some x)
         if s.found then s
         else
           match s.x with
           | some x2 =>
             (match chainFromNode x2.nodeRef t.root with
              | some ch => secondaryLoop E mx phiq ch s.n2 s.tests s.x
              | none => ⟨false, s.n2, s.tests, s.x⟩)
           | none => ⟨false, s.n2, s.tests, s.x⟩)
    | _ => ⟨false, 0, 0, some x⟩
  else ⟨false, 0, 0, some x⟩

/-- The configuration fields of the tree that `balance()` reads
(binaryTree.C lines 53-59).  `nEqns` is `chemistry_.nEqns()`, the dimension
of the composition space.  `minBalanceThreshold_`, `maxNbBalanceTest_` and
`balanceProp_` are scalars: the constructor's `lookupOrDefault` defaults
`0.1*maxElements_`, `0.01*chemistry_.nSpecie()` and `0.35` are doubles, so
template deduction makes the lookups scalar-typed. -/
structure BalCfg where
  nEqns : ℕ
  minBalanceThreshold : ℚ
  maxNbBalanceTest : ℚ
  balanceProp : ℚ
deriving DecidableEq, Repr

/-- Insert a (variance value, direction index) pair into an
ascending-by-value list: the sort of `SortableList<scalar> variance`. -/
def insVar (p : ℚ × ℕ) : List (ℚ × ℕ) → List (ℚ × ℕ)
  | [] => [p]
  | q :: rest => if p.1 ≤ q.1 then p :: q :: rest else q :: insVar p rest

/-- `variance.sort()` then `variance.indices()` (binaryTree.C line 646,
670): the direction indices ordered by ascending variance. -/
def sortedIndices (vars : List ℚ) : List ℕ :=
  (vars.enum.map (fun p => (p.2, p.1))).foldr insVar [] |>.map (·.2)

/-- One pass of the dimension-selection while loop of `balance()`
(binaryTree.C lines 654-687), recursing on explicit fuel (the loop runs at
most `nEqns - 1` times since `nbTests` increases and is bounded by
`variance.size()-1`).  State: `nbLeft`, `nbTests`, `bestBalance`, `maxDir`;
returns the final `maxDir`. -/
def balLoop (cps : List chP) (mean : List ℚ) (sIdx : List ℕ) (size : ℕ)
    (prop mxT : ℚ) (nEq : ℕ) :
    ℕ → ℕ → ℕ → ℚ → ℤ → ℤ
  | 0, _, _, _, maxDir => maxDir
  | fuel + 1, nbLeft, nbTests, best, maxDir =>
    if (((nbLeft : ℚ) < prop * size) ∨ ((nbLeft : ℚ) > (1 - prop) * size)) ∧
        ((nbTests : ℚ) < mxT) ∧ (nbTests < nEq - 1) then
      let nbT := nbTests + 1
      let curDir := sIdx.getD (nEq - nbT) 0
      let nbL := (cps.filter
        (fun c => c.phi.getD curDir 0 < mean.getD curDir 0)).length
      if |(nbL : ℚ) - (size : ℚ) * (1/2)| < best then
        balLoop cps mean sIdx size prop mxT nEq fuel nbL nbT
          |(nbL : ℚ) - (size : ℚ) * (1/2)| (curDir : ℤ)
      else
        balLoop cps mean sIdx size prop mxT nEq fuel nbL nbT best maxDir
    else maxDir

/-- `chemPoints[j]->phi()[d]` where `d` may be the initial -1 (an
out-of-bounds read in the source, modelled as junk 0). -/
def phiAt (c : chP) (d : ℤ) : ℚ :=
  if 0 ≤ d then c.phi.getD d.toNat 0 else 0

/-- `chemPoints[i]` for a label index that may be the initial -1 (an
out-of-bounds read in the source, modelled as a junk default leaf). -/
def cpAt (cps : List chP) (i : ℤ) : chP :=
  if 0 ≤ i then cps.getD i.toNat default else default

/-- State of the extreme-leaf scan of `balance()` (binaryTree.C lines
689-692): `scalar maxPhi(0); scalar minPhi(GREAT); label minId(-1);
label maxId(-1);`. -/
structure ExtSt where
  maxPhi : ℚ
  minPhi : ℚ
  maxId : ℤ
  minId : ℤ
deriving DecidableEq, Repr

/-- One iteration of the extreme-leaf scan (binaryTree.C lines 693-706):
`if (phiMaxDir > maxPhi) { maxId = j; maxPhi = phiMaxDir; }
 if (phiMaxDir < minPhi) { minId = j; minPhi = phiMaxDir; }`. -/
def extStep (d : ℤ) (st : ExtSt) (jc : ℕ × chP) : ExtSt :=
  let pj := phiAt jc.2 d
  { maxPhi := if pj > st.maxPhi then pj else st.maxPhi
    maxId := if pj > st.maxPhi then (jc.1 : ℤ) else st.maxId
    minPhi := if pj < st.minPhi then pj else st.minPhi
    minId := if pj < st.minPhi then (jc.1 : ℤ) else st.minId }

/-- The extreme-leaf scan of `balance()` (binaryTree.C lines 689-706):
returns (maxId, minId). -/
def findExtremes (cps : List chP) (d : ℤ) : ℤ × ℤ :=
  let st := cps.enum.foldl (extStep d) ⟨0, GREAT, -1, -1⟩
  (st.maxId, st.minId)

/-- One swap `chPIndex[i] <-> chPIndex[j]` of the shuffle
(binaryTree.C lines 728-734). -/
def listSwap (l : List ℕ) (i j : ℕ) : List ℕ :=
  (l.set i (l.getD j 0)).set j (l.getD i 0)

/-- The shuffle of `labelList chPIndex = identity(size_)` with
`j = randGenerator.integer(i, size_-1)` (binaryTree.C lines 725-734).  The
random generator (seeded with the wall clock) is a parameter `rnd`; the
contract of `Random::integer(i, size-1)` is `i ≤ rnd i < size`. -/
def fisherYates (size : ℕ) (rnd : ℕ → ℕ) : List ℕ :=
  (List.range size).foldl (fun l i => listSwap l i (rnd i)) (List.range size)

/-- The per-direction mean of the stored compositions
(binaryTree.C lines 618-633): `mean += phij` over the leaves, `mean /= size_`. -/
def balMean (cps : List chP) (size nEq : ℕ) : List ℚ :=
  (List.range nEq).map (fun i => (cps.map (fun c => c.phi.getD i 0)).sum / size)

/-- The per-direction variance (binaryTree.C lines 636-643). -/
def balVars (cps : List chP) (mean : List ℚ) (nEq : ℕ) : List ℚ :=
  (List.range nEq).map
    (fun i => (cps.map (fun c => (c.phi.getD i 0 - mean.getD i 0) ^ 2)).sum)

/-- The `maxDir` computed by `balance()` for a leaf list `cps` of a tree of
counter `size` (binaryTree.C lines 618-687). -/
def balanceMaxDir (cfg : BalCfg) (cps : List chP) (size : ℕ) : ℤ :=
  let mean := balMean cps size cfg.nEqns
  let vars := balVars cps mean cfg.nEqns
  balLoop cps mean (sortedIndices vars) size cfg.balanceProp
    cfg.maxNbBalanceTest cfg.nEqns cfg.nEqns 0 0 (size : ℚ) (-1)

/-- The pair (maxId, minId) of extreme-leaf indices `balance()` selects. -/
def balanceIds (cfg : BalCfg) (t : BTree) : ℤ × ℤ :=
  findExtremes (leafListB t.root) (balanceMaxDir cfg (leafListB t.root) t.size)

/-- The new root node `balance()` constructs from the two extreme leaves
(binaryTree.C lines 715-720): `bn* newNode = new bn(minRef, maxRef, NULL);
root_ = newNode; minRef->node() = newNode; maxRef->node() = newNode;`. -/
def balanceNewRoot (cfg : BalCfg) (t : BTree) : bn :=
  mkNode t.next (cpAt (leafListB t.root) (balanceIds cfg t).2)
    (cpAt (leafListB t.root) (balanceIds cfg t).1)

/-- `balance()` (binaryTree.C lines 614-757).  Under the trigger
`size_ > minBalanceThreshold_`: collect the leaves (in order), choose the
split direction, select the two extreme leaves as the children of a new
root node (address `t.next`), drop all old nodes (`deleteAllNode`), and
re-insert every other leaf in shuffled order by primary search + splice
(each new node takes the next fresh address).  Returns the new tree and
the source's return value. -/
def balance (cfg : BalCfg) (rnd : ℕ → ℕ) (t : BTree) : BTree × Bool :=
  if cfg.minBalanceThreshold < (t.size : ℚ) then
    let cps := leafListB t.root
    let ids := balanceIds cfg t
    let newRoot := balanceNewRoot cfg t
    let res := (fisherYates t.size rnd).foldl
      (fun (st : bn × ℕ) (idx : ℕ) =>
        if (idx : ℤ) ≠ ids.2 ∧ (idx : ℤ) ≠ ids.1 then
          (insertAtSearchB (cpAt cps (idx : ℤ)).phi st.2 (cpAt cps (idx : ℤ)) st.1,
           st.2 + 1)
        else st)
      (newRoot, t.next + 1)
    ({ root := res.1, size := t.size, next := res.2 }, true)
  else (t, false)

/-- Tree invariant (spec §3, invariant 1, for the size ≥ 2 shape): on each
side of each node, a child node excludes an element slot. -/
def wfSlots : bn → Bool
  | bn.nil => true
  | bn.mk _ _ _ eL eR l r =>
    (l.isNil || eL.isNone) && (r.isNil || eR.isNone) && wfSlots l && wfSlots r

/-- Tree invariant (spec §3, invariant 1): each side of each node is either
a non-empty child node or a filled leaf slot (searches always end at a
stored leaf). -/
def sidesOK : bn → Bool
  | bn.nil => true
  | bn.mk _ _ _ eL eR l r =>
    (if l.isNil then eL.isSome else sidesOK l) &&
    (if r.isNil then eR.isSome else sidesOK r)

/-- The back-pointer invariant (spec §8): every leaf sitting in an element
slot stores the identifier of the node holding it. -/
def backPtrOK : bn → Bool
  | bn.nil => true
  | bn.mk nid _ _ eL eR l r =>
    (match eL with | some p => p.nodeRef = nid | none => true) &&
    (match eR with | some p => p.nodeRef = nid | none => true) &&
    backPtrOK l && backPtrOK r

theorem bn.isNil_iff : ∀ b : bn, b.isNil = true ↔ b = bn.nil := by
  intro b; cases b <;> simp [bn.isNil]

/-! ## Claim C1: the primary search -/

/-- The descent described by the spec sentence for `binaryTreeSearch`
(size > 1): "starting at the root it computes the dot product v.phi_q at
each node, descends to the right child if v.phi_q > a and to the left
otherwise, until the chosen side has no child node, and returns the leaf
stored in that side's element slot". -/
inductive Descends (phiq : List ℚ) : bn → Option chP → Prop where
  | stopRight (id : ℕ) (v : List ℚ) (a : ℚ) (eL eR : Option chP) (l : bn) :
      dotp phiq v > a → Descends phiq (bn.mk id v a eL eR l bn.nil) eR
  | goRight (id : ℕ) (v : List ℚ) (a : ℚ) (eL eR : Option chP) (l r : bn)
      (res : Option chP) :
      dotp phiq v > a → r ≠ bn.nil → Descends phiq r res →
      Descends phiq (bn.mk id v a eL eR l r) res
  | stopLeft (id : ℕ) (v : List ℚ) (a : ℚ) (eL eR : Option chP) (r : bn) :
      ¬ dotp phiq v > a → Descends phiq (bn.mk id v a eL eR bn.nil r) eL
  | goLeft (id : ℕ) (v : List ℚ) (a : ℚ) (eL eR : Option chP) (l r : bn)
      (res : Option chP) :
      ¬ dotp phiq v > a → l ≠ bn.nil → Descends phiq l res →
      Descends phiq (bn.mk id v a eL eR l r) res

theorem search_descends (phiq : List ℚ) (b : bn) (hb : b ≠ bn.nil) :
    Descends phiq b (binaryTreeSearchB phiq b) := by
  induction b with
  | nil => exact absurd rfl hb
  | mk id v a eL eR l r ihl ihr =>
    rw [binaryTreeSearchB]
    by_cases hc : dotp phiq v > a
    · rw [if_pos hc]
      by_cases hr : r.isNil = true
      · rw [hr, if_pos rfl]
        rw [bn.isNil_iff] at hr
        subst hr
        exact Descends.stopRight id v a eL eR l hc
      · rw [Bool.not_eq_true] at hr
        rw [hr, if_neg (by simp)]
        have hrne : r ≠ bn.nil := by
          intro h; subst h; simp [bn.isNil] at hr
        exact Descends.goRight id v a eL eR l r _ hc hrne (ihr hrne)
    · rw [if_neg hc]
      by_cases hl : l.isNil = true
      · rw [hl, if_pos rfl]
        rw [bn.isNil_iff] at hl
        subst hl
        exact Descends.stopLeft id v a eL eR r hc
      · rw [Bool.not_eq_true] at hl
        rw [hl, if_neg (by simp)]
        have hlne : l ≠ bn.nil := by
          intro h; subst h; simp [bn.isNil] at hl
        exact Descends.goLeft id v a eL eR l r _ hc hlne (ihl hlne)

/-- C1: for every tree state, `binaryTreeSearch(phi_q)` returns NULL when
size = 0; returns the single leaf stored in the root's left slot when
size = 1; and when size > 1 it performs, from the root, exactly the
hyperplane descent of the spec (dot product v·phi_q at each node, right if
> a else left, stopping when the chosen side has no child and returning
that side's element slot). -/
theorem binaryTreeSearch_follows_hyperplanes (t : BTree) (phiq : List ℚ) :
    (t.size = 0 → binaryTreeSearch t phiq = none) ∧
    (t.size = 1 → binaryTreeSearch t phiq = t.root.eL) ∧
    (1 < t.size → t.root ≠ bn.nil →
      Descends phiq t.root (binaryTreeSearch t phiq)) := by
  refine ⟨fun h0 => ?_, fun h1 => ?_, fun hgt hne => ?_⟩
  · simp [binaryTreeSearch, h0]
  · simp [binaryTreeSearch, h1]
  · rw [binaryTreeSearch, if_pos hgt]
    exact search_descends phiq t.root hne

/-- A concrete two-leaf tree used by witnesses: root node with hyperplane
v = (1), a = 0, leaves 1 (left) and 2 (right). -/
def wLeaf1 : chP := ⟨1, 10, [-1], [0], [[1]], [[1]]⟩

def wLeaf2 : chP := ⟨2, 10, [1], [0], [[1]], [[1]]⟩

def wTree2 : BTree :=
  { root := bn.mk 10 [1] 0 (some wLeaf1) (some wLeaf2) bn.nil bn.nil,
    size := 2, next := 11 }

theorem binaryTreeSearch_follows_hyperplanes_witness :
    Descends [1] wTree2.root (binaryTreeSearch wTree2 [1]) :=
  (binaryTreeSearch_follows_hyperplanes wTree2 [1]).2.2 (by decide)
    (by decide)

/-! ## Claim C8: clear -/

/-- C8: `clear()` removes every leaf and every node, leaves the root NULL
and the size 0, and a subsequent `insertNewLeaf` succeeds through the
size-0 branch, creating a fresh placeholder root that holds the new leaf
in its left element slot. -/
theorem clear_resets_tree (t : BTree) (d : LeafData) :
    (clear t).root = bn.nil ∧ (clear t).size = 0 ∧
    leafListB (clear t).root = [] ∧
    insertNewLeaf (clear t) d none =
      { root := bn.mk t.next [] 0 (some (mkChP (t.next + 1) t.next d)) none
          bn.nil bn.nil,
        size := 1, next := t.next + 2 } := by
  refine ⟨rfl, rfl, rfl, ?_⟩
  simp [insertNewLeaf, clear]

/-! ## Claim C2: the secondary-search budget -/

theorem inSubTreeB_budget (E : chP → List ℚ → Bool) (mx : ℕ) (phiq : List ℚ)
    (b : bn) : ∀ (n tc : ℕ) (x : Option chP), n ≤ mx →
    ∃ k, (inSubTreeB E mx phiq b n tc x).n2 = n + k ∧
         (inSubTreeB E mx phiq b n tc x).tests = tc + k ∧ n + k ≤ mx := by
  induction b with
  | nil =>
    intro n tc x h
    exact ⟨0, by simp [inSubTreeB], by simp [inSubTreeB], by omega⟩
  | mk id v a eL eR l r ihl ihr =>
    intro n tc x h
    rw [inSubTreeB]
    by_cases hn : n < mx
    · rw [if_pos hn]
      by_cases hd : dotp phiq v ≤ a
      · rw [if_pos hd]
        have H1 : ∃ k, (if l.isNil then (⟨optE E eL phiq, n + 1, tc + 1, eL⟩ : SRes)
            else inSubTreeB E mx phiq l n tc x).n2 = n + k ∧
            (if l.isNil then (⟨optE E eL phiq, n + 1, tc + 1, eL⟩ : SRes)
            else inSubTreeB E mx phiq l n tc x).tests = tc + k ∧ n + k ≤ mx := by
          by_cases hl : l.isNil
          · exact ⟨1, by simp [hl], by simp [hl], by omega⟩
          · simpa [hl] using ihl n tc x h
        obtain ⟨k1, hk1n, hk1t, hk1b⟩ := H1
        dsimp only
        by_cases hf : (if l.isNil then (⟨optE E eL phiq, n + 1, tc + 1, eL⟩ : SRes)
            else inSubTreeB E mx phiq l n tc x).found
        · rw [if_pos hf]
          exact ⟨k1, hk1n, hk1t, hk1b⟩
        · rw [if_neg hf]
          by_cases hr : r.isNil
          · rw [if_pos hr]
            by_cases h2 : (if l.isNil then (⟨optE E eL phiq, n + 1, tc + 1, eL⟩ : SRes)
                else inSubTreeB E mx phiq l n tc x).n2 < mx
            · rw [if_pos h2]
              exact ⟨k1 + 1, by simp [hk1n]; omega, by simp [hk1t]; omega, by omega⟩
            · rw [if_neg h2]
              exact ⟨k1, hk1n, hk1t, hk1b⟩
          · rw [if_neg hr]
            obtain ⟨k2, hk2n, hk2t, hk2b⟩ :=
              ihr ((if l.isNil then (⟨optE E eL phiq, n + 1, tc + 1, eL⟩ : SRes)
                else inSubTreeB E mx phiq l n tc x).n2)
                ((if l.isNil then (⟨optE E eL phiq, n + 1, tc + 1, eL⟩ : SRes)
                else inSubTreeB E mx phiq l n tc x).tests)
                ((if l.isNil then (⟨optE E eL phiq, n + 1, tc + 1, eL⟩ : SRes)
                else inSubTreeB E mx phiq l n tc x).x)
                (by omega)
            refine ⟨k1 + k2, ?_, ?_, ?_⟩
            · rw [hk2n, hk1n]; omega
            · rw [hk2t, hk1t]; omega
            · omega
      · rw [if_neg hd]
        have H1 : ∃ k, (if r.isNil then (⟨optE E eR phiq, n + 1, tc + 1, eR⟩ : SRes)
            else inSubTreeB E mx phiq r n tc x).n2 = n + k ∧
            (if r.isNil then (⟨optE E eR phiq, n + 1, tc + 1, eR⟩ : SRes)
            else inSubTreeB E mx phiq r n tc x).tests = tc + k ∧ n + k ≤ mx := by
          by_cases hr : r.isNil
          · exact ⟨1, by simp [hr], by simp [hr], by omega⟩
          · simpa [hr] using ihr n tc x h
        obtain ⟨k1, hk1n, hk1t, hk1b⟩ := H1
        dsimp only
        by_cases hf : (if r.isNil then (⟨optE E eR phiq, n + 1, tc + 1, eR⟩ : SRes)
            else inSubTreeB E mx phiq r n tc x).found
        · rw [if_pos hf]
          exact ⟨k1, hk1n, hk1t, hk1b⟩
        · rw [if_neg hf]
          by_cases hl : l.isNil
          · rw [if_pos hl]
            by_cases h2 : (if r.isNil then (⟨optE E eR phiq, n + 1, tc + 1, eR⟩ : SRes)
                else inSubTreeB E mx phiq r n tc x).n2 < mx
            · rw [if_pos h2]
              exact ⟨k1 + 1, by simp [hk1n]; omega, by simp [hk1t]; omega, by omega⟩
            · rw [if_neg h2]
              exact ⟨k1, hk1n, hk1t, hk1b⟩
          · rw [if_neg hl]
            obtain ⟨k2, hk2n, hk2t, hk2b⟩ :=
              ihl ((if r.isNil then (⟨optE E eR phiq, n + 1, tc + 1, eR⟩ : SRes)
                else inSubTreeB E mx phiq r n tc x).n2)
                ((if r.isNil then (⟨optE E eR phiq, n + 1, tc + 1, eR⟩ : SRes)
                else inSubTreeB E mx phiq r n tc x).tests)
                ((if r.isNil then (⟨optE E eR phiq, n + 1, tc + 1, eR⟩ : SRes)
                else inSubTreeB E mx phiq r n tc x).x)
                (by omega)
            refine ⟨k1 + k2, ?_, ?_, ?_⟩
            · rw [hk2n, hk1n]; omega
            · rw [hk2t, hk1t]; omega
            · omega
    · rw [if_neg hn]
      exact ⟨0, rfl, rfl, by omega⟩

theorem inSubTree_budget (E : chP → List ℚ → Bool) (mx : ℕ) (phiq : List ℚ)
    (y : bn) (n tc : ℕ) (x : Option chP) (h : n ≤ mx) :
    ∃ k, (inSubTree E mx phiq y n tc x).n2 = n + k ∧
         (inSubTree E mx phiq y n tc x).tests = tc + k ∧ n + k ≤ mx := by
  rw [inSubTree]
  by_cases hy : y.isNil
  · rw [if_pos hy]
    exact ⟨0, rfl, rfl, by omega⟩
  · rw [if_neg hy]
    exact inSubTreeB_budget E mx phiq y n tc x h

theorem secondaryLoop_budget (E : chP → List ℚ → Bool) (mx : ℕ)
    (phiq : List ℚ) :
    ∀ (ch : List (Option chP × bn)) (n tc : ℕ) (x : Option chP), n ≤ mx →
    ∃ k, (secondaryLoop E mx phiq ch n tc x).n2 = n + k ∧
         (secondaryLoop E mx phiq ch n tc x).tests = tc + k ∧ n + k ≤ mx := by
  intro ch
  induction ch with
  | nil =>
    intro n tc x h
    exact ⟨0, by simp [secondaryLoop], by simp [secondaryLoop], by omega⟩
  | cons e rest ih =>
    intro n tc x h
    obtain ⟨es, ns⟩ := e
    rw [secondaryLoop.eq_def]
    dsimp only
    by_cases hn : n < mx
    · rw [if_pos hn]
      cases es with
      | some xS =>
        dsimp only
        by_cases hE : E xS phiq = true
        · rw [if_pos hE]
          exact ⟨1, rfl, rfl, by omega⟩
        · rw [if_neg hE]
          obtain ⟨k, hkn, hkt, hkb⟩ := ih (n + 1) (tc + 1) x (by omega)
          exact ⟨1 + k, by rw [hkn]; omega, by rw [hkt]; omega, by omega⟩
      | none =>
        dsimp only
        obtain ⟨k1, hk1n, hk1t, hk1b⟩ :=
          inSubTree_budget E mx phiq ns n tc x (by omega)
        by_cases hf : (inSubTree E mx phiq ns n tc x).found
        · rw [if_pos hf]
          exact ⟨k1, hk1n, hk1t, hk1b⟩
        · rw [if_neg hf]
          obtain ⟨k2, hk2n, hk2t, hk2b⟩ :=
            ih (inSubTree E mx phiq ns n tc x).n2
              (inSubTree E mx phiq ns n tc x).tests
              (inSubTree E mx phiq ns n tc x).x (by omega)
          refine ⟨k1 + k2, ?_, ?_, ?_⟩
          · rw [hk2n, hk1n]; omega
          · rw [hk2t, hk1t]; omega
          · omega
    · rw [if_neg hn]
      exact ⟨0, rfl, rfl, by omega⟩

/-- C2: for every top-level `secondaryBTSearch(phi_q, x)` call, the counter
`n2ndSearch_` is reset at entry (afterwards it equals exactly the number of
`inEOA` tests performed in the call, i.e. the count started from 0), the
total number of leaf `inEOA` tests across the call — all `inSubTree`
descents included — never exceeds `max2ndSearch_`, inner `inSubTree` calls
never reset the counter (they only add their own test count to whatever
value they receive, staying within the budget), and when
`max2ndSearch_ = 0` or size ≤ 1 no test is performed and the call returns
false. -/
theorem secondaryBTSearch_budget (E : chP → List ℚ → Bool) (mx : ℕ)
    (t : BTree) (phiq : List ℚ) (x : chP) :
    (secondaryBTSearch E mx t phiq x).tests ≤ mx ∧
    (secondaryBTSearch E mx t phiq x).n2 =
      (secondaryBTSearch E mx t phiq x).tests ∧
    ((mx = 0 ∨ t.size ≤ 1) →
      (secondaryBTSearch E mx t phiq x).tests = 0 ∧
      (secondaryBTSearch E mx t phiq x).found = false) ∧
    (∀ (y : bn) (n tc : ℕ) (xx : Option chP), n ≤ mx →
      ∃ k, (inSubTree E mx phiq y n tc xx).n2 = n + k ∧
           (inSubTree E mx phiq y n tc xx).tests = tc + k ∧ n + k ≤ mx) := by
  have main : (secondaryBTSearch E mx t phiq x).n2 =
      (secondaryBTSearch E mx t phiq x).tests ∧
      (secondaryBTSearch E mx t phiq x).tests ≤ mx := by
    rw [secondaryBTSearch]
    by_cases hg : 0 < mx ∧ 1 < t.size
    · rw [if_pos hg]
      cases hch : upChain x.id t.root with
      | none => exact ⟨rfl, Nat.zero_le mx⟩
      | some ch =>
        cases ch with
        | nil => exact ⟨rfl, Nat.zero_le mx⟩
        | cons e rest =>
          obtain ⟨es, ns⟩ := e
          dsimp only
          cases es with
          | some xS =>
            dsimp only
            by_cases hE : E xS phiq = true
            · rw [if_pos hE]
              exact ⟨rfl, hg.1⟩
            · rw [if_neg hE]
              obtain ⟨k, hkn, hkt, hkb⟩ :=
                secondaryLoop_budget E mx phiq rest 1 1 (some x) (by omega)
              exact ⟨by rw [hkn, hkt], by omega⟩
          | none =>
            dsimp only
            obtain ⟨k1, hk1n, hk1t, hk1b⟩ :=
              inSubTree_budget E mx phiq ns 0 0 (some x) (by omega)
            by_cases hf : (inSubTree E mx phiq ns 0 0 (some x)).found
            · rw [if_pos hf]
              exact ⟨by rw [hk1n, hk1t], by omega⟩
            · rw [if_neg hf]
              cases hx2 : (inSubTree E mx phiq ns 0 0 (some x)).x with
              | none =>
                dsimp only
                exact ⟨by rw [hk1n, hk1t], by omega⟩
              | some x2 =>
                dsimp only
                cases hcf : chainFromNode x2.nodeRef t.root with
                | none =>
                  dsimp only
                  exact ⟨by rw [hk1n, hk1t], by omega⟩
                | some ch =>
                  dsimp only
                  obtain ⟨k2, hk2n, hk2t, hk2b⟩ :=
                    secondaryLoop_budget E mx phiq ch
                      (inSubTree E mx phiq ns 0 0 (some x)).n2
                      (inSubTree E mx phiq ns 0 0 (some x)).tests
                      (some x2) (by omega)
                  constructor
                  · rw [hk2n, hk2t, hk1n, hk1t]
                  · rw [hk2t, hk1t]; omega
    · rw [if_neg hg]
      exact ⟨rfl, Nat.zero_le mx⟩
  refine ⟨main.2, main.1, fun hz => ?_, fun y n tc xx h =>
    inSubTree_budget E mx phiq y n tc xx h⟩
  have hg : ¬ (0 < mx ∧ 1 < t.size) := by omega
  rw [secondaryBTSearch, if_neg hg]
  exact ⟨rfl, rfl⟩

theorem secondaryBTSearch_budget_witness :
    (secondaryBTSearch (fun _ _ => true) 0 wTree2 [1] wLeaf1).tests = 0 ∧
    (secondaryBTSearch (fun _ _ => true) 0 wTree2 [1] wLeaf1).found = false :=
  (secondaryBTSearch_budget (fun _ _ => true) 0 wTree2 [1] wLeaf1).2.2.1
    (Or.inl rfl)

/-! ## Claim C9: the secondary-search out-parameter -/

theorem optE_true (E : chP → List ℚ → Bool) (o : Option chP) (phiq : List ℚ)
    (h : optE E o phiq = true) : ∃ c, o = some c ∧ E c phiq = true := by
  cases o with
  | none => simp [optE] at h
  | some c => exact ⟨c, rfl, h⟩

theorem inSubTreeB_found (E : chP → List ℚ → Bool) (mx : ℕ) (phiq : List ℚ)
    (b : bn) : ∀ (n tc : ℕ) (x : Option chP),
    (inSubTreeB E mx phiq b n tc x).found = true →
    ∃ c, (inSubTreeB E mx phiq b n tc x).x = some c ∧ E c phiq = true := by
  induction b with
  | nil =>
    intro n tc x h
    rw [inSubTreeB] at h
    simp at h
  | mk id v a eL eR l r ihl ihr =>
    intro n tc x h
    rw [inSubTreeB] at h ⊢
    by_cases hn : n < mx
    · rw [if_pos hn] at h ⊢
      by_cases hd : dotp phiq v ≤ a
      · rw [if_pos hd] at h ⊢
        dsimp only at h ⊢
        by_cases hf : (if l.isNil then (⟨optE E eL phiq, n + 1, tc + 1, eL⟩ : SRes)
            else inSubTreeB E mx phiq l n tc x).found
        · rw [if_pos hf] at h ⊢
          by_cases hl : l.isNil
          · rw [if_pos hl] at hf ⊢
            exact optE_true E eL phiq hf
          · rw [if_neg hl] at hf ⊢
            exact ihl n tc x hf
        · rw [if_neg hf] at h ⊢
          by_cases hr : r.isNil
          · rw [if_pos hr] at h ⊢
            by_cases h2 : (if l.isNil then (⟨optE E eL phiq, n + 1, tc + 1, eL⟩ : SRes)
                else inSubTreeB E mx phiq l n tc x).n2 < mx
            · rw [if_pos h2] at h ⊢
              exact optE_true E eR phiq h
            · rw [if_neg h2] at h
              simp at h
          · rw [if_neg hr] at h ⊢
            exact ihr _ _ _ h
      · rw [if_neg hd] at h ⊢
        dsimp only at h ⊢
        by_cases hf : (if r.isNil then (⟨optE E eR phiq, n + 1, tc + 1, eR⟩ : SRes)
            else inSubTreeB E mx phiq r n tc x).found
        · rw [if_pos hf] at h ⊢
          by_cases hr : r.isNil
          · rw [if_pos hr] at hf ⊢
            exact optE_true E eR phiq hf
          · rw [if_neg hr] at hf ⊢
            exact ihr n tc x hf
        · rw [if_neg hf] at h ⊢
          by_cases hl : l.isNil
          · rw [if_pos hl] at h ⊢
            by_cases h2 : (if r.isNil then (⟨optE E eR phiq, n + 1, tc + 1, eR⟩ : SRes)
                else inSubTreeB E mx phiq r n tc x).n2 < mx
            · rw [if_pos h2] at h ⊢
              exact optE_true E eL phiq h
            · rw [if_neg h2] at h
              simp at h
          · rw [if_neg hl] at h ⊢
            exact ihl _ _ _ h
    · rw [if_neg hn] at h
      simp at h

theorem inSubTree_found (E : chP → List ℚ → Bool) (mx : ℕ) (phiq : List ℚ)
    (y : bn) (n tc : ℕ) (x : Option chP)
    (h : (inSubTree E mx phiq y n tc x).found = true) :
    ∃ c, (inSubTree E mx phiq y n tc x).x = some c ∧ E c phiq = true := by
  rw [inSubTree] at h ⊢
  by_cases hy : y.isNil
  · rw [if_pos hy] at h
    simp at h
  · rw [if_neg hy] at h ⊢
    exact inSubTreeB_found E mx phiq y n tc x h

theorem secondaryLoop_found (E : chP → List ℚ → Bool) (mx : ℕ)
    (phiq : List ℚ) :
    ∀ (ch : List (Option chP × bn)) (n tc : ℕ) (x : Option chP),
    (secondaryLoop E mx phiq ch n tc x).found = true →
    ∃ c, (secondaryLoop E mx phiq ch n tc x).x = some c ∧ E c phiq = true := by
  intro ch
  induction ch with
  | nil =>
    intro n tc x h
    rw [secondaryLoop] at h
    simp at h
  | cons e rest ih =>
    intro n tc x h
    obtain ⟨es, ns⟩ := e
    rw [secondaryLoop.eq_def] at h ⊢
    dsimp only at h ⊢
    by_cases hn : n < mx
    · rw [if_pos hn] at h ⊢
      cases es with
      | some xS =>
        dsimp only at h ⊢
        by_cases hE : E xS phiq = true
        · rw [if_pos hE] at h ⊢
          exact ⟨xS, rfl, hE⟩
        · rw [if_neg hE] at h ⊢
          exact ih _ _ _ h
      | none =>
        dsimp only at h ⊢
        by_cases hf : (inSubTree E mx phiq ns n tc x).found
        · rw [if_pos hf] at h ⊢
          exact inSubTree_found E mx phiq ns n tc x hf
        · rw [if_neg hf] at h ⊢
          exact ih _ _ _ h
    · rw [if_neg hn] at h
      simp at h

/-- The leaves and the tree of the concrete C9 scenario: the sibling of the
query leaf `c9x` is the node `c9B`, so the failing walk enters `inSubTree`,
which assigns the out-parameter at each tested leaf. -/
def c9x : chP := ⟨1, 20, [0], [], [], []⟩

def c9c1 : chP := ⟨2, 21, [0], [], [], []⟩

def c9c2 : chP := ⟨3, 21, [0], [], [], []⟩

def c9B : bn := bn.mk 21 [] 0 (some c9c1) (some c9c2) bn.nil bn.nil

def c9Tree : BTree :=
  { root := bn.mk 20 [] 0 (some c9x) none bn.nil c9B, size := 3, next := 22 }

/-- C9: whenever `secondaryBTSearch` or `inSubTree` returns true, the
out-parameter `x` holds a leaf whose `inEOA(phi_q)` returned true; but on a
false return `x` may have been reassigned to the last leaf tested (whose
EOA does not contain phi_q) — witnessed by a concrete run in which the
search fails and leaves `x` pointing at a tested leaf different from the
original argument.  A second concrete run shows the clobbered `x` is live
state: the ancestor walk resumes from the clobbered leaf's node and can
re-test (and return) the original leaf itself, with a third `inEOA` test
counted. -/
theorem secondary_out_param :
    (∀ (E : chP → List ℚ → Bool) (mx : ℕ) (t : BTree) (phiq : List ℚ)
        (x : chP), (secondaryBTSearch E mx t phiq x).found = true →
      ∃ c, (secondaryBTSearch E mx t phiq x).x = some c ∧ E c phiq = true) ∧
    (∀ (E : chP → List ℚ → Bool) (mx : ℕ) (phiq : List ℚ) (y : bn)
        (n tc : ℕ) (xx : Option chP),
        (inSubTree E mx phiq y n tc xx).found = true →
      ∃ c, (inSubTree E mx phiq y n tc xx).x = some c ∧ E c phiq = true) ∧
    ((secondaryBTSearch (fun _ _ => false) 5 c9Tree [0] c9x).found = false ∧
     (secondaryBTSearch (fun _ _ => false) 5 c9Tree [0] c9x).x = some c9c2 ∧
     c9c2 ≠ c9x ∧ (fun (_ : chP) (_ : List ℚ) => false) c9c2 [0] = false) ∧
    ((secondaryBTSearch (fun c _ => c.id == 1) 5 c9Tree [0] c9x).found = true ∧
     (secondaryBTSearch (fun c _ => c.id == 1) 5 c9Tree [0] c9x).x = some c9x ∧
     (secondaryBTSearch (fun c _ => c.id == 1) 5 c9Tree [0] c9x).n2 = 3) := by
  refine ⟨?_, fun E mx phiq y n tc xx h =>
    inSubTree_found E mx phiq y n tc xx h, ⟨by decide, by decide, by decide, rfl⟩,
    by decide, by decide, by decide⟩
  intro E mx t phiq x h
  rw [secondaryBTSearch] at h ⊢
  by_cases hg : 0 < mx ∧ 1 < t.size
  · rw [if_pos hg] at h ⊢
    cases hch : upChain x.id t.root with
    | none =>
      rw [hch] at h
      simp at h
    | some ch =>
      rw [hch] at h
      cases ch with
      | nil => simp at h
      | cons e rest =>
        obtain ⟨es, ns⟩ := e
        dsimp only at h ⊢
        cases es with
        | some xS =>
          dsimp only at h ⊢
          by_cases hE : E xS phiq = true
          · rw [if_pos hE] at h ⊢
            exact ⟨xS, rfl, hE⟩
          · rw [if_neg hE] at h ⊢
            exact secondaryLoop_found E mx phiq rest 1 1 (some x) h
        | none =>
          dsimp only at h ⊢
          by_cases hf : (inSubTree E mx phiq ns 0 0 (some x)).found
          · rw [if_pos hf] at h ⊢
            exact inSubTree_found E mx phiq ns 0 0 (some x) hf
          · rw [if_neg hf] at h ⊢
            cases hx2 : (inSubTree E mx phiq ns 0 0 (some x)).x with
            | none =>
              rw [hx2] at h
              dsimp only at h
              simp at h
            | some x2 =>
              rw [hx2] at h
              dsimp only at h ⊢
              cases hcf : chainFromNode x2.nodeRef t.root with
              | none =>
                rw [hcf] at h
                dsimp only at h
                simp at h
              | some ch =>
                rw [hcf] at h
                dsimp only at h ⊢
                exact secondaryLoop_found E mx phiq ch _ _ _ h
  · rw [if_neg hg] at h
    simp at h

theorem secondary_out_param_witness :
    ∃ c, (secondaryBTSearch (fun _ _ => true) 1 wTree2 [0] wLeaf1).x = some c ∧
      (fun (_ : chP) (_ : List ℚ) => true) c [0] = true :=
  secondary_out_param.1 (fun _ _ => true) 1 wTree2 [0] wLeaf1 (by decide)

/-! ## Claim C3: insertNewLeaf -/

/-- The splice described by the spec sentence for the insert: "splices a
new node in place of that leaf's slot": the element slot holding the leaf
with identifier `pid` is cleared and that side's child pointer is set to
the new node `nn`; everything else is unchanged. -/
inductive SplicedAt (nn : bn) (pid : ℕ) : bn → bn → Prop where
  | hereRight (id : ℕ) (v : List ℚ) (a : ℚ) (eL : Option chP) (l r : bn)
      (p : chP) : p.id = pid →
      SplicedAt nn pid (bn.mk id v a eL (some p) l r) (bn.mk id v a eL none l nn)
  | hereLeft (id : ℕ) (v : List ℚ) (a : ℚ) (eR : Option chP) (l r : bn)
      (p : chP) : p.id = pid →
      SplicedAt nn pid (bn.mk id v a (some p) eR l r) (bn.mk id v a none eR nn r)
  | recLeft (id : ℕ) (v : List ℚ) (a : ℚ) (eL eR : Option chP) (l r l₂ : bn) :
      SplicedAt nn pid l l₂ →
      SplicedAt nn pid (bn.mk id v a eL eR l r) (bn.mk id v a eL eR l₂ r)
  | recRight (id : ℕ) (v : List ℚ) (a : ℚ) (eL eR : Option chP) (l r r₂ : bn) :
      SplicedAt nn pid r r₂ →
      SplicedAt nn pid (bn.mk id v a eL eR l r) (bn.mk id v a eL eR l r₂)

theorem insertAtSearchB_spliced (phiq : List ℚ) (nid : ℕ) (newL : chP)
    (b : bn) (p : chP) (hs : binaryTreeSearchB phiq b = some p) :
    SplicedAt (mkNode nid p newL) p.id b (insertAtSearchB phiq nid newL b) := by
  induction b with
  | nil => simp [binaryTreeSearchB] at hs
  | mk id v a eL eR l r ihl ihr =>
    rw [binaryTreeSearchB] at hs
    rw [insertAtSearchB.eq_def]
    dsimp only
    by_cases hd : dotp phiq v > a
    · rw [if_pos hd] at hs ⊢
      by_cases hr : r.isNil
      · rw [if_pos hr] at hs ⊢
        rw [hs]
        exact SplicedAt.hereRight id v a eL l r p rfl
      · rw [if_neg hr] at hs ⊢
        exact SplicedAt.recRight id v a eL eR l r _ (ihr hs)
    · rw [if_neg hd] at hs ⊢
      by_cases hl : l.isNil
      · rw [if_pos hl] at hs ⊢
        rw [hs]
        exact SplicedAt.hereLeft id v a eR l r p rfl
      · rw [if_neg hl] at hs ⊢
        exact SplicedAt.recLeft id v a eL eR l r _ (ihl hs)

theorem spliceByIdB_not_found (pid nid : ℕ) (newL : chP) (b : bn)
    (hwf : wfSlots b = true)
    (hmem : pid ∉ (leafListB b).map chP.id) :
    spliceByIdB pid nid newL b = none := by
  induction b with
  | nil => rfl
  | mk id v a eL eR l r ihl ihr =>
    rw [wfSlots] at hwf
    simp only [Bool.and_eq_true, Bool.or_eq_true] at hwf
    obtain ⟨⟨⟨hwl, hwr⟩, hwfl⟩, hwfr⟩ := hwf
    rw [leafListB] at hmem
    simp only [List.map_append, List.mem_append, not_or] at hmem
    obtain ⟨hml, hmr⟩ := hmem
    rw [spliceByIdB.eq_def]
    dsimp only
    have heR : ¬ eR.map chP.id = some pid := by
      intro hc
      cases eR with
      | none => simp at hc
      | some q =>
        have hq : q.id = pid := by simpa using hc
        have hrnil : r.isNil = true := by
          rcases hwr with h | h
          · exact h
          · simp at h
        rw [if_pos hrnil] at hmr
        simp at hmr
        exact hmr hq.symm
    have heL : ¬ eL.map chP.id = some pid := by
      intro hc
      cases eL with
      | none => simp at hc
      | some q =>
        have hq : q.id = pid := by simpa using hc
        have hlnil : l.isNil = true := by
          rcases hwl with h | h
          · exact h
          · simp at h
        rw [if_pos hlnil] at hml
        simp at hml
        exact hml hq.symm
    rw [if_neg heR, if_neg heL]
    have hl0 : spliceByIdB pid nid newL l = none := by
      by_cases hlnil : l.isNil
      · rw [bn.isNil_iff] at hlnil
        subst hlnil
        rfl
      · rw [if_neg hlnil] at hml
        exact ihl hwfl hml
    have hr0 : spliceByIdB pid nid newL r = none := by
      by_cases hrnil : r.isNil
      · rw [bn.isNil_iff] at hrnil
        subst hrnil
        rfl
      · rw [if_neg hrnil] at hmr
        exact ihr hwfr hmr
    rw [hl0, hr0]

theorem spliceByIdB_found (pid nid : ℕ) (newL : chP) (b : bn)
    (hwf : wfSlots b = true)
    (hmem : pid ∈ (leafListB b).map chP.id) :
    ∃ q r₂, spliceByIdB pid nid newL b = some r₂ ∧ q.id = pid ∧
      SplicedAt (mkNode nid q newL) pid b r₂ := by
  induction b with
  | nil => simp [leafListB] at hmem
  | mk id v a eL eR l r ihl ihr =>
    rw [wfSlots] at hwf
    simp only [Bool.and_eq_true, Bool.or_eq_true] at hwf
    obtain ⟨⟨⟨hwl, hwr⟩, hwfl⟩, hwfr⟩ := hwf
    rw [spliceByIdB.eq_def]
    dsimp only
    by_cases heR : eR.map chP.id = some pid
    · cases eR with
      | none => simp at heR
      | some q =>
        rw [if_pos heR]
        refine ⟨q, _, rfl, by injection heR, ?_⟩
        exact SplicedAt.hereRight id v a eL l r q (by injection heR)
    · rw [if_neg heR]
      by_cases heL : eL.map chP.id = some pid
      · cases eL with
        | none => simp at heL
        | some q =>
          rw [if_pos heL]
          refine ⟨q, _, rfl, by injection heL, ?_⟩
          exact SplicedAt.hereLeft id v a eR l r q (by injection heL)
      · rw [if_neg heL]
        rw [leafListB] at hmem
        simp only [List.map_append, List.mem_append] at hmem
        by_cases hml : pid ∈ (if l.isNil then eL.toList else leafListB l).map chP.id
        · have hlnotnil : l.isNil = false := by
            by_cases hlnil : l.isNil
            · rw [if_pos hlnil] at hml
              cases eL with
              | none => simp at hml
              | some q =>
                simp at hml
                exact absurd (by simp [hml]) heL
            · simp [hlnil]
          rw [hlnotnil] at hml
          simp only [Bool.false_eq_true, if_false] at hml
          obtain ⟨q, r₂, hsp, hq, hspl⟩ := ihl hwfl hml
          rw [hsp]
          exact ⟨q, _, rfl, hq, SplicedAt.recLeft id v a eL eR l r r₂ hspl⟩
        · have hmr : pid ∈ (if r.isNil then eR.toList else leafListB r).map chP.id := by
            rcases hmem with h | h
            · exact absurd h hml
            · exact h
          have hrnotnil : r.isNil = false := by
            by_cases hrnil : r.isNil
            · rw [if_pos hrnil] at hmr
              cases eR with
              | none => simp at hmr
              | some q =>
                simp at hmr
                exact absurd (by simp [hmr]) heR
            · simp [hrnil]
          rw [hrnotnil] at hmr
          simp only [Bool.false_eq_true, if_false] at hmr
          have hl0 : spliceByIdB pid nid newL l = none := by
            by_cases hlnil : l.isNil
            · rw [bn.isNil_iff] at hlnil
              subst hlnil
              rfl
            · refine spliceByIdB_not_found pid nid newL l hwfl ?_
              rw [if_neg hlnil] at hml
              exact hml
          obtain ⟨q, r₂, hsp, hq, hspl⟩ := ihr hwfr hmr
          rw [hl0, hsp]
          exact ⟨q, _, rfl, hq, SplicedAt.recRight id v a eL eR l r r₂ hspl⟩

/-- C3: `insertNewLeaf` by cases on the pre-call size.  size = 0 creates an
empty root node holding the new leaf in its left element slot; size = 1
replaces the root placeholder by a real node whose leaves are (existing,
new); size ≥ 2 locates the nearest leaf by primary search when phi0 is
NULL — or uses the supplied phi0 — and splices a new node with children
(nearest, new leaf) in place of that leaf's slot, with both leaves'
back-pointers set to the new node (`mkNode`).  The size counter always
grows by exactly 1. -/
theorem insertNewLeaf_cases (t : BTree) (d : LeafData) (phi0 : Option chP) :
    ((insertNewLeaf t d phi0).size = t.size + 1) ∧
    (t.size = 0 → (insertNewLeaf t d phi0).root =
      bn.mk t.next [] 0 (some (mkChP (t.next + 1) t.next d)) none bn.nil bn.nil) ∧
    (t.size = 1 → phi0 = none → ∀ p, t.root.eL = some p →
      (insertNewLeaf t d phi0).root =
        mkNode t.next p (mkChP (t.next + 1) t.next d)) ∧
    (1 < t.size → phi0 = none → ∀ p, binaryTreeSearch t d.phi = some p →
      SplicedAt (mkNode t.next p (mkChP (t.next + 1) t.next d)) p.id t.root
        (insertNewLeaf t d phi0).root) ∧
    (1 < t.size → ∀ p, phi0 = some p → wfSlots t.root = true →
      p.id ∈ (leafListB t.root).map chP.id →
      ∃ q, q.id = p.id ∧
        SplicedAt (mkNode t.next q (mkChP (t.next + 1) t.next d)) p.id t.root
          (insertNewLeaf t d phi0).root) := by
  refine ⟨?_, ?_, ?_, ?_, ?_⟩
  · rw [insertNewLeaf.eq_def]
    split
    · rfl
    · dsimp only
      split
      · rfl
      · split <;> rfl
  · intro h0
    rw [insertNewLeaf.eq_def, if_pos h0]
  · intro h1 hphi p hp
    subst hphi
    rw [insertNewLeaf.eq_def, if_neg (by omega)]
    have hs : binaryTreeSearch t d.phi = some p := by
      rw [binaryTreeSearch, if_neg (by omega), if_pos h1]
      exact hp
    dsimp only
    rw [hs]
    dsimp only
    rw [if_neg (by omega)]
  · intro hgt hphi p hs
    subst hphi
    rw [insertNewLeaf.eq_def, if_neg (by omega)]
    dsimp only
    rw [hs]
    dsimp only
    rw [if_pos hgt]
    have hsB : binaryTreeSearchB d.phi t.root = some p := by
      rw [binaryTreeSearch, if_pos hgt] at hs
      exact hs
    exact insertAtSearchB_spliced d.phi t.next (mkChP (t.next + 1) t.next d)
      t.root p hsB
  · intro hgt p hphi hwf hmem
    subst hphi
    rw [insertNewLeaf.eq_def, if_neg (by omega)]
    dsimp only
    rw [if_pos hgt]
    obtain ⟨q, r₂, hsp, hq, hspl⟩ :=
      spliceByIdB_found p.id t.next (mkChP (t.next + 1) t.next d) t.root hwf hmem
    rw [hsp]
    exact ⟨q, hq, hspl⟩

/-- A concrete one-leaf tree used by witnesses. -/
def wTree1 : BTree :=
  { root := bn.mk 5 [] 0 (some wLeaf1) none bn.nil bn.nil, size := 1, next := 6 }

def wData : LeafData := ⟨[2], [0], [[1]], [[1]]⟩

theorem insertNewLeaf_cases_witness :
    (insertNewLeaf wTree1 wData none).root =
      mkNode wTree1.next wLeaf1 (mkChP (wTree1.next + 1) wTree1.next wData) :=
  (insertNewLeaf_cases wTree1 wData none).2.2.1 rfl rfl wLeaf1 rfl

/-! ## Claim C7: the back-pointer invariant -/

theorem backPtrOK_mk_iff (id : ℕ) (v : List ℚ) (a : ℚ) (eL eR : Option chP)
    (l r : bn) :
    backPtrOK (bn.mk id v a eL eR l r) = true ↔
    ((∀ p, eL = some p → p.nodeRef = id) ∧ (∀ p, eR = some p → p.nodeRef = id) ∧
      backPtrOK l = true ∧ backPtrOK r = true) := by
  rw [backPtrOK.eq_def]
  simp only [Bool.and_eq_true]
  constructor
  · rintro ⟨⟨⟨h1, h2⟩, h3⟩, h4⟩
    refine ⟨?_, ?_, h3, h4⟩
    · intro p hp
      subst hp
      simpa using h1
    · intro p hp
      subst hp
      simpa using h2
  · rintro ⟨h1, h2, h3, h4⟩
    refine ⟨⟨⟨?_, ?_⟩, h3⟩, h4⟩
    · cases eL with
      | none => rfl
      | some p => simpa using h1 p rfl
    · cases eR with
      | none => rfl
      | some p => simpa using h2 p rfl

theorem backPtrOK_mkNode (nid : ℕ) (pl pr : chP) :
    backPtrOK (mkNode nid pl pr) = true := by
  rw [mkNode, backPtrOK_mk_iff]
  refine ⟨?_, ?_, rfl, rfl⟩
  · intro p hp
    injection hp with hp
    subst hp
    rfl
  · intro p hp
    injection hp with hp
    subst hp
    rfl

theorem insertAtSearchB_backPtr (phiq : List ℚ) (nid : ℕ) (newL : chP)
    (b : bn) (h : backPtrOK b = true) :
    backPtrOK (insertAtSearchB phiq nid newL b) = true := by
  induction b with
  | nil => exact h
  | mk id v a eL eR l r ihl ihr =>
    rw [backPtrOK_mk_iff] at h
    obtain ⟨h1, h2, h3, h4⟩ := h
    rw [insertAtSearchB.eq_def]
    dsimp only
    by_cases hd : dotp phiq v > a
    · rw [if_pos hd]
      by_cases hr : r.isNil
      · rw [if_pos hr]
        cases eR with
        | none =>
          rw [backPtrOK_mk_iff]
          exact ⟨h1, h2, h3, h4⟩
        | some p =>
          rw [backPtrOK_mk_iff]
          exact ⟨h1, (fun q hq => Option.noConfusion hq), h3, backPtrOK_mkNode nid p newL⟩
      · rw [if_neg hr]
        rw [backPtrOK_mk_iff]
        exact ⟨h1, h2, h3, ihr h4⟩
    · rw [if_neg hd]
      by_cases hl : l.isNil
      · rw [if_pos hl]
        cases eL with
        | none =>
          rw [backPtrOK_mk_iff]
          exact ⟨h1, h2, h3, h4⟩
        | some p =>
          rw [backPtrOK_mk_iff]
          exact ⟨(fun q hq => Option.noConfusion hq), h2, backPtrOK_mkNode nid p newL, h4⟩
      · rw [if_neg hl]
        rw [backPtrOK_mk_iff]
        exact ⟨h1, h2, ihl h3, h4⟩

theorem spliceByIdB_backPtr (pid nid : ℕ) (newL : chP) (b r₂ : bn)
    (hsp : spliceByIdB pid nid newL b = some r₂)
    (h : backPtrOK b = true) : backPtrOK r₂ = true := by
  induction b generalizing r₂ with
  | nil => simp [spliceByIdB] at hsp
  | mk id v a eL eR l r ihl ihr =>
    rw [backPtrOK_mk_iff] at h
    obtain ⟨h1, h2, h3, h4⟩ := h
    rw [spliceByIdB.eq_def] at hsp
    dsimp only at hsp
    by_cases heR : eR.map chP.id = some pid
    · rw [if_pos heR] at hsp
      cases eR with
      | none => simp at heR
      | some p =>
        injection hsp with hsp
        subst hsp
        rw [backPtrOK_mk_iff]
        exact ⟨h1, (fun q hq => Option.noConfusion hq), h3, backPtrOK_mkNode nid p newL⟩
    · rw [if_neg heR] at hsp
      by_cases heL : eL.map chP.id = some pid
      · rw [if_pos heL] at hsp
        cases eL with
        | none => simp at heL
        | some p =>
          injection hsp with hsp
          subst hsp
          rw [backPtrOK_mk_iff]
          exact ⟨(fun q hq => Option.noConfusion hq), h2, backPtrOK_mkNode nid p newL, h4⟩
      · rw [if_neg heL] at hsp
        cases hspl : spliceByIdB pid nid newL l with
        | some l₂ =>
          rw [hspl] at hsp
          injection hsp with hsp
          subst hsp
          rw [backPtrOK_mk_iff]
          exact ⟨h1, h2, ihl l₂ hspl h3, h4⟩
        | none =>
          rw [hspl] at hsp
          cases hspr : spliceByIdB pid nid newL r with
          | some r₃ =>
            rw [hspr] at hsp
            injection hsp with hsp
            subst hsp
            rw [backPtrOK_mk_iff]
            exact ⟨h1, h2, h3, ihr r₃ hspr h4⟩
          | none =>
            rw [hspr] at hsp
            simp at hsp

theorem delChild_backPtr (x pid : ℕ) (c : bn) (h : backPtrOK c = true) :
    (∀ q, (delChild x pid c).1 = some q → q.nodeRef = pid) ∧
    backPtrOK (delChild x pid c).2 = true := by
  cases c with
  | nil => exact ⟨(fun q hq => Option.noConfusion hq), rfl⟩
  | mk id v a eL eR l r =>
    rw [backPtrOK_mk_iff] at h
    obtain ⟨h1, h2, h3, h4⟩ := h
    rw [delChild.eq_def]
    dsimp only
    by_cases hx : eL.map chP.id = some x
    · rw [if_pos hx]
      cases eR with
      | some sib =>
        exact ⟨fun q hq => by injection hq with hq2; rw [hq2.symm], rfl⟩
      | none => exact ⟨(fun q hq => Option.noConfusion hq), h4⟩
    · rw [if_neg hx]
      cases eL with
      | some sib =>
        exact ⟨fun q hq => by injection hq with hq2; rw [hq2.symm], rfl⟩
      | none => exact ⟨(fun q hq => Option.noConfusion hq), h3⟩

theorem delRec_backPtr (x : ℕ) (b : bn) (h : backPtrOK b = true) :
    backPtrOK (delRec x b) = true := by
  induction b with
  | nil => exact h
  | mk id v a eL eR l r ihl ihr =>
    rw [backPtrOK_mk_iff] at h
    obtain ⟨h1, h2, h3, h4⟩ := h
    rw [delRec.eq_def]
    dsimp only
    by_cases hhl : holdsLeaf x l = true
    · rw [if_pos hhl]
      obtain ⟨he, hn⟩ := delChild_backPtr x id l h3
      rw [backPtrOK_mk_iff]
      exact ⟨he, h2, hn, h4⟩
    · rw [if_neg hhl]
      by_cases hhr : holdsLeaf x r = true
      · rw [if_pos hhr]
        obtain ⟨he, hn⟩ := delChild_backPtr x id r h4
        rw [backPtrOK_mk_iff]
        exact ⟨h1, he, h3, hn⟩
      · rw [if_neg hhr]
        rw [backPtrOK_mk_iff]
        exact ⟨h1, h2, ihl h3, ihr h4⟩

theorem foldIns_backPtr (cps : List chP) (mi ma : ℤ) :
    ∀ (li : List ℕ) (st : bn × ℕ), backPtrOK st.1 = true →
    backPtrOK ((li.foldl (fun (st : bn × ℕ) (idx : ℕ) =>
      if (idx : ℤ) ≠ mi ∧ (idx : ℤ) ≠ ma then
        (insertAtSearchB (cpAt cps (idx : ℤ)).phi st.2 (cpAt cps (idx : ℤ)) st.1,
         st.2 + 1)
      else st) st).1) = true := by
  intro li
  induction li with
  | nil => intro st h; exact h
  | cons i rest ih =>
    intro st h
    rw [List.foldl_cons]
    apply ih
    by_cases hc : (i : ℤ) ≠ mi ∧ (i : ℤ) ≠ ma
    · rw [if_pos hc]
      exact insertAtSearchB_backPtr _ _ _ _ h
    · rw [if_neg hc]
      exact h

/-- C7: after every tree-mutating operation (`insertNewLeaf`, `deleteLeaf`,
`balance`), every leaf sitting in an element slot of a node of the tree
stores that node's identifier in its `node_` back-pointer. -/
theorem tree_backptr_invariant (t : BTree) (d : LeafData) (phi0 : Option chP)
    (x : chP) (cfg : BalCfg) (rnd : ℕ → ℕ)
    (h : backPtrOK t.root = true) :
    backPtrOK (insertNewLeaf t d phi0).root = true ∧
    backPtrOK (deleteLeaf t x).root = true ∧
    backPtrOK (balance cfg rnd t).1.root = true := by
  refine ⟨?_, ?_, ?_⟩
  · rw [insertNewLeaf.eq_def]
    by_cases h0 : t.size = 0
    · rw [if_pos h0]
      dsimp only
      rw [backPtrOK_mk_iff]
      refine ⟨?_, fun q hq => Option.noConfusion hq, rfl, rfl⟩
      intro p hp
      injection hp with hp
      rw [hp.symm]
      rfl
    · rw [if_neg h0]
      dsimp only
      cases hp0 : (match phi0 with
          | some p => some p
          | none => binaryTreeSearch t d.phi) with
      | none => exact h
      | some p =>
        dsimp only
        by_cases hgt : 1 < t.size
        · rw [if_pos hgt]
          cases phi0 with
          | none =>
            dsimp only
            exact insertAtSearchB_backPtr _ _ _ _ h
          | some q =>
            dsimp only
            cases hsp : spliceByIdB q.id t.next (mkChP (t.next + 1) t.next d) t.root with
            | none => exact h
            | some r₂ => exact spliceByIdB_backPtr _ _ _ _ _ hsp h
        · rw [if_neg hgt]
          exact backPtrOK_mkNode _ _ _
  · rw [deleteLeaf.eq_def]
    by_cases h1 : t.size = 1
    · rw [if_pos h1]
      rfl
    · rw [if_neg h1]
      by_cases hgt : 1 < t.size
      · rw [if_pos hgt]
        by_cases hhold : holdsLeaf x.id t.root = true
        · rw [if_pos hhold]
          by_cases hel : t.root.eL.map chP.id = some x.id
          · rw [if_pos hel]
            cases her : t.root.eR with
            | some sib =>
              dsimp only
              rw [backPtrOK_mk_iff]
              refine ⟨?_, fun q hq => Option.noConfusion hq, rfl, rfl⟩
              intro p hp
              injection hp with hp
              rw [hp.symm]
            | none =>
              dsimp only
              cases hroot : t.root with
              | nil => rfl
              | mk id v a eL eR l r =>
                rw [hroot] at h
                rw [backPtrOK_mk_iff] at h
                exact h.2.2.2
          · rw [if_neg hel]
            cases hel2 : t.root.eL with
            | some sib =>
              dsimp only
              rw [backPtrOK_mk_iff]
              refine ⟨?_, fun q hq => Option.noConfusion hq, rfl, rfl⟩
              intro p hp
              injection hp with hp
              rw [hp.symm]
            | none =>
              dsimp only
              cases hroot : t.root with
              | nil => rfl
              | mk id v a eL eR l r =>
                rw [hroot] at h
                rw [backPtrOK_mk_iff] at h
                exact h.2.2.1
        · rw [if_neg hhold]
          exact delRec_backPtr x.id t.root h
      · rw [if_neg hgt]
        exact h
  · rw [balance.eq_def]
    by_cases hth : cfg.minBalanceThreshold < (t.size : ℚ)
    · rw [if_pos hth]
      dsimp only
      exact foldIns_backPtr (leafListB t.root) (balanceIds cfg t).2
        (balanceIds cfg t).1 (fisherYates t.size rnd)
        (mkNode t.next _ _, t.next + 1) (backPtrOK_mkNode _ _ _)
    · rw [if_neg hth]
      exact h

theorem tree_backptr_invariant_witness :
    backPtrOK (deleteLeaf wTree2 wLeaf1).root = true :=
  (tree_backptr_invariant wTree2 wData none wLeaf1 ⟨1, 0, 0, 35/100⟩
    (fun i => i) (by decide)).2.1

/-! ## Claim C4: deleteLeaf -/

/-- The leaves contributed by one side (element slot, child pointer) of a
node. -/
def sideLeaves (e : Option chP) (c : bn) : List chP :=
  if c.isNil then e.toList else leafListB c

theorem leafListB_mk (id : ℕ) (v : List ℚ) (a : ℚ) (eL eR : Option chP)
    (l r : bn) :
    leafListB (bn.mk id v a eL eR l r) = sideLeaves eL l ++ sideLeaves eR r := rfl

theorem wfSlots_mk_iff (id : ℕ) (v : List ℚ) (a : ℚ) (eL eR : Option chP)
    (l r : bn) :
    wfSlots (bn.mk id v a eL eR l r) = true ↔
    ((l.isNil = true ∨ eL = none) ∧ (r.isNil = true ∨ eR = none) ∧
      wfSlots l = true ∧ wfSlots r = true) := by
  rw [wfSlots.eq_def]
  simp only [Bool.and_eq_true, Bool.or_eq_true]
  constructor
  · rintro ⟨⟨⟨h1, h2⟩, h3⟩, h4⟩
    refine ⟨?_, ?_, h3, h4⟩
    · rcases h1 with h | h
      · exact Or.inl h
      · exact Or.inr (by simpa using h)
    · rcases h2 with h | h
      · exact Or.inl h
      · exact Or.inr (by simpa using h)
  · rintro ⟨h1, h2, h3, h4⟩
    refine ⟨⟨⟨?_, ?_⟩, h3⟩, h4⟩
    · rcases h1 with h | h
      · exact Or.inl h
      · exact Or.inr (by simpa using h)
    · rcases h2 with h | h
      · exact Or.inl h
      · exact Or.inr (by simpa using h)

theorem mem_count_unique (f : chP → ℕ) :
    ∀ (l : List chP) (a b : chP), a ∈ l → b ∈ l → f a = f b →
    (l.map f).count (f a) = 1 → a = b := by
  intro l
  induction l with
  | nil => intro a b ha _ _ _; cases ha
  | cons h t ih =>
    intro a b ha hb hf hc
    rw [List.map_cons, List.count_cons] at hc
    by_cases hah : a = h
    · by_cases hbh : b = h
      · rw [hah, hbh]
      · exfalso
        have hbt : b ∈ t := (List.mem_cons.mp hb).resolve_left hbh
        have hfb : f b ∈ t.map f := List.mem_map_of_mem f hbt
        have hpos : 0 < (t.map f).count (f b) := List.count_pos_iff.mpr hfb
        have hfa : f h = f a := by rw [hah]
        rw [hf] at hc
        simp only [hfa, hf, beq_self_eq_true, if_pos] at hc
        omega
    · have hat : a ∈ t := (List.mem_cons.mp ha).resolve_left hah
      have hfa : f a ∈ t.map f := List.mem_map_of_mem f hat
      have hpos : 0 < (t.map f).count (f a) := List.count_pos_iff.mpr hfa
      by_cases hbh : b = h
      · exfalso
        have hfb : f h = f a := by rw [← hbh, hf]
        simp only [hfb, beq_self_eq_true, if_pos] at hc
        omega
      · have hbt : b ∈ t := (List.mem_cons.mp hb).resolve_left hbh
        refine ih a b hat hbt hf ?_
        by_cases hha : f h = f a
        · exfalso
          simp only [hha, beq_self_eq_true, if_pos] at hc
          omega
        · have hbeq : (f h == f a) = false := by
            simpa using hha
          simpa [hbeq] using hc

theorem holdsLeaf_mem (xid : ℕ) (c : bn) (hh : holdsLeaf xid c = true)
    (hwf : wfSlots c = true) : ∃ p, p ∈ leafListB c ∧ p.id = xid := by
  cases c with
  | nil => simp [holdsLeaf] at hh
  | mk id v a eL eR l r =>
    rw [wfSlots_mk_iff] at hwf
    obtain ⟨hw1, hw2, _, _⟩ := hwf
    rw [holdsLeaf] at hh
    simp only [Bool.or_eq_true, decide_eq_true_eq] at hh
    rw [leafListB_mk]
    rcases hh with hh | hh
    · cases eL with
      | none => simp at hh
      | some p =>
        have hlnil : l.isNil = true := by
          rcases hw1 with h | h
          · exact h
          · cases h
        refine ⟨p, List.mem_append_left _ ?_, by simpa using hh⟩
        rw [sideLeaves, if_pos hlnil]
        simp
    · cases eR with
      | none => simp at hh
      | some p =>
        have hrnil : r.isNil = true := by
          rcases hw2 with h | h
          · exact h
          · cases h
        refine ⟨p, List.mem_append_right _ ?_, by simpa using hh⟩
        rw [sideLeaves, if_pos hrnil]
        simp

theorem delRec_id (xid : ℕ) (b : bn) (hwf : wfSlots b = true)
    (hna : ∀ p ∈ leafListB b, p.id ≠ xid) : delRec xid b = b := by
  induction b with
  | nil => rfl
  | mk id v a eL eR l r ihl ihr =>
    rw [wfSlots_mk_iff] at hwf
    obtain ⟨hw1, hw2, hwl, hwr⟩ := hwf
    rw [leafListB_mk] at hna
    have hnal : ∀ p ∈ sideLeaves eL l, p.id ≠ xid := by
      intro p hp
      exact hna p (List.mem_append_left _ hp)
    have hnar : ∀ p ∈ sideLeaves eR r, p.id ≠ xid := by
      intro p hp
      exact hna p (List.mem_append_right _ hp)
    have hhl : holdsLeaf xid l = false := by
      by_cases hh : holdsLeaf xid l = true
      · obtain ⟨p, hp, hpid⟩ := holdsLeaf_mem xid l hh hwl
        have hlnotnil : l.isNil = false := by
          cases l with
          | nil => simp [holdsLeaf] at hh
          | mk _ _ _ _ _ _ _ => rfl
        exfalso
        refine hnal p ?_ hpid
        rw [sideLeaves, hlnotnil]
        simpa using hp
      · simpa using hh
    have hhr : holdsLeaf xid r = false := by
      by_cases hh : holdsLeaf xid r = true
      · obtain ⟨p, hp, hpid⟩ := holdsLeaf_mem xid r hh hwr
        have hrnotnil : r.isNil = false := by
          cases r with
          | nil => simp [holdsLeaf] at hh
          | mk _ _ _ _ _ _ _ => rfl
        exfalso
        refine hnar p ?_ hpid
        rw [sideLeaves, hrnotnil]
        simpa using hp
      · simpa using hh
    rw [delRec.eq_def]
    dsimp only
    rw [hhl, hhr]
    simp only [Bool.false_eq_true, if_false]
    have hl2 : delRec xid l = l := by
      by_cases hlnil : l.isNil
      · rw [bn.isNil_iff] at hlnil
        subst hlnil
        rfl
      · refine ihl hwl ?_
        intro p hp
        refine hnal p ?_
        rw [sideLeaves, if_neg hlnil]
        exact hp
    have hr2 : delRec xid r = r := by
      by_cases hrnil : r.isNil
      · rw [bn.isNil_iff] at hrnil
        subst hrnil
        rfl
      · refine ihr hwr ?_
        intro p hp
        refine hnar p ?_
        rw [sideLeaves, if_neg hrnil]
        exact hp
    rw [hl2, hr2]

theorem not_holds_of_no_id (xid : ℕ) (c : bn) (hwf : wfSlots c = true)
    (hna : ∀ p ∈ leafListB c, p.id ≠ xid) : holdsLeaf xid c = false := by
  by_cases hh : holdsLeaf xid c = true
  · obtain ⟨p, hp, hpid⟩ := holdsLeaf_mem xid c hh hwf
    exact absurd hpid (hna p hp)
  · simpa using hh

theorem delRec_ne_nil (xid id : ℕ) (v : List ℚ) (a : ℚ) (eL eR : Option chP)
    (l r : bn) : (delRec xid (bn.mk id v a eL eR l r)).isNil = false := by
  rw [delRec.eq_def]
  dsimp only
  by_cases h1 : holdsLeaf xid l = true
  · rw [if_pos h1]
    rfl
  · rw [if_neg h1]
    by_cases h2 : holdsLeaf xid r = true
    · rw [if_pos h2]
      rfl
    · rw [if_neg h2]
      rfl

theorem sideLeaves_nil (e : Option chP) : sideLeaves e bn.nil = e.toList := rfl

theorem sideLeaves_of_isNil {c : bn} (h : c.isNil = true) (e : Option chP) :
    sideLeaves e c = e.toList := by
  rw [sideLeaves, if_pos h]

theorem delChild_leaves (x : chP) (pid : ℕ) (c : bn)
    (hwf : wfSlots c = true) (hh : holdsLeaf x.id c = true)
    (hx : x ∈ leafListB c)
    (hcnt : ((leafListB c).map chP.id).count x.id = 1) :
    List.Perm ((leafListB c).map stripRef)
      (stripRef x ::
        (sideLeaves (delChild x.id pid c).1 (delChild x.id pid c).2).map
          stripRef) := by
  cases c with
  | nil => simp [holdsLeaf] at hh
  | mk cid cv ca ceL ceR cl cr =>
    rw [wfSlots_mk_iff] at hwf
    obtain ⟨hw1, hw2, hwl, hwr⟩ := hwf
    rw [holdsLeaf] at hh
    simp only [Bool.or_eq_true, decide_eq_true_eq] at hh
    by_cases hxl : ceL.map chP.id = some x.id
    · cases ceL with
      | none => simp at hxl
      | some p =>
        have hpid : p.id = x.id := by simpa using hxl
        have hclnil : cl.isNil = true := by
          rcases hw1 with h | h
          · exact h
          · cases h
        have hpmem : p ∈ leafListB (bn.mk cid cv ca (some p) ceR cl cr) := by
          rw [leafListB_mk]
          refine List.mem_append_left _ ?_
          rw [sideLeaves, if_pos hclnil]
          simp
        have hpx : p = x := by
          refine mem_count_unique chP.id _ p x hpmem hx hpid ?_
          rw [hpid]
          exact hcnt
        cases ceR with
        | some sib =>
          have hcrnil : cr.isNil = true := by
            rcases hw2 with h | h
            · exact h
            · cases h
          have hdc : delChild x.id pid (bn.mk cid cv ca (some p) (some sib) cl cr) =
              (some { sib with nodeRef := pid }, bn.nil) := by
            rw [delChild.eq_def]
            dsimp only
            rw [if_pos hxl]
          rw [hdc, leafListB_mk]
          dsimp only
          rw [sideLeaves_of_isNil hclnil, sideLeaves_of_isNil hcrnil,
            sideLeaves_nil]
          simp [hpx, stripRef]
        | none =>
          have hdc : delChild x.id pid (bn.mk cid cv ca (some p) none cl cr) =
              (none, cr) := by
            rw [delChild.eq_def]
            dsimp only
            rw [if_pos hxl]
          rw [hdc, leafListB_mk]
          dsimp only
          rw [sideLeaves_of_isNil hclnil]
          simp [hpx, stripRef]
    · have hxr : ceR.map chP.id = some x.id := by
        rcases hh with h | h
        · exact absurd (by simpa using h) (by simpa using hxl)
        · cases ceR with
          | none => simp at h
          | some q => simpa using h
      cases ceR with
      | none => simp at hxr
      | some p =>
        have hpid : p.id = x.id := by simpa using hxr
        have hcrnil : cr.isNil = true := by
          rcases hw2 with h | h
          · exact h
          · cases h
        have hpmem : p ∈ leafListB (bn.mk cid cv ca ceL (some p) cl cr) := by
          rw [leafListB_mk]
          refine List.mem_append_right _ ?_
          rw [sideLeaves, if_pos hcrnil]
          simp
        have hpx : p = x := by
          refine mem_count_unique chP.id _ p x hpmem hx hpid ?_
          rw [hpid]
          exact hcnt
        cases ceL with
        | some sib =>
          have hclnil : cl.isNil = true := by
            rcases hw1 with h | h
            · exact h
            · cases h
          have hdc : delChild x.id pid (bn.mk cid cv ca (some sib) (some p) cl cr) =
              (some { sib with nodeRef := pid }, bn.nil) := by
            rw [delChild.eq_def]
            dsimp only
            rw [if_neg hxl]
          rw [hdc, leafListB_mk]
          dsimp only
          rw [sideLeaves_of_isNil hclnil, sideLeaves_of_isNil hcrnil,
            sideLeaves_nil]
          simp only [Option.toList_some, List.map_append, List.map_cons,
            List.map_nil, List.singleton_append, hpx]
          have hsr : stripRef { sib with nodeRef := pid } = stripRef sib := rfl
          rw [hsr]
          exact List.Perm.swap _ _ _
        | none =>
          have hdc : delChild x.id pid (bn.mk cid cv ca none (some p) cl cr) =
              (none, cl) := by
            rw [delChild.eq_def]
            dsimp only
            rw [if_neg hxl]
          rw [hdc, leafListB_mk]
          dsimp only
          rw [sideLeaves_of_isNil hcrnil]
          have hmid : ((sideLeaves none cl).map stripRef ++
              stripRef x :: ([] : List chP)).Perm
              (stripRef x :: ((sideLeaves none cl).map stripRef ++
                ([] : List chP))) := List.perm_middle
          simp only [Option.toList_some, List.map_append, List.map_cons,
            List.map_nil, List.append_nil, hpx] at hmid ⊢
          exact hmid

theorem delRec_leaves (x : chP) : ∀ (b : bn), wfSlots b = true →
    holdsLeaf x.id b = false → x ∈ leafListB b →
    ((leafListB b).map chP.id).count x.id = 1 →
    List.Perm ((leafListB b).map stripRef)
      (stripRef x :: (leafListB (delRec x.id b)).map stripRef) := by
  intro b
  induction b with
  | nil => intro _ _ hx; cases hx
  | mk id v a eL eR l r ihl ihr =>
    intro hwf hh hx hcnt
    have hwf2 := hwf
    rw [wfSlots_mk_iff] at hwf2
    obtain ⟨hw1, hw2, hwl, hwr⟩ := hwf2
    have hh1 : ¬ eL.map chP.id = some x.id := by
      intro hc
      have ht : holdsLeaf x.id (bn.mk id v a eL eR l r) = true := by
        rw [holdsLeaf]
        simp [hc]
      rw [ht] at hh
      cases hh
    have hh2 : ¬ eR.map chP.id = some x.id := by
      intro hc
      have ht : holdsLeaf x.id (bn.mk id v a eL eR l r) = true := by
        rw [holdsLeaf]
        simp [hc]
      rw [ht] at hh
      cases hh
    rw [leafListB_mk] at hx hcnt ⊢
    rw [List.map_append, List.count_append] at hcnt
    by_cases hxL : x ∈ sideLeaves eL l
    · have hcl : 0 < ((sideLeaves eL l).map chP.id).count x.id :=
        List.count_pos_iff.mpr (List.mem_map_of_mem chP.id hxL)
    
      have hnoR : ∀ p ∈ sideLeaves eR r, p.id ≠ x.id := by
        intro p hp hpid
        have : x.id ∈ (sideLeaves eR r).map chP.id := by
          rw [← hpid]
          exact List.mem_map_of_mem chP.id hp
        have := List.count_pos_iff.mpr this
        omega
      have hcl1 : ((sideLeaves eL l).map chP.id).count x.id = 1 := by omega
      have hlnn : l.isNil = false := by
        by_cases hlnil : l.isNil
        · exfalso
          rw [sideLeaves_of_isNil hlnil] at hxL
          cases heL : eL with
          | none =>
            rw [heL] at hxL
            cases hxL
          | some q =>
            rw [heL] at hxL
            simp only [Option.toList_some, List.mem_singleton] at hxL
            refine absurd ?_ hh1
            rw [heL, hxL]
            rfl
        · simpa using hlnil
      have hLl : sideLeaves eL l = leafListB l := by
        rw [sideLeaves, hlnn]
        simp
      by_cases hhl : holdsLeaf x.id l = true
      · have hdr : delRec x.id (bn.mk id v a eL eR l r) =
            bn.mk id v a (delChild x.id id l).1 eR (delChild x.id id l).2 r := by
          rw [delRec.eq_def]
          dsimp only
          rw [if_pos hhl]
        rw [hdr, leafListB_mk]
        have hperm := delChild_leaves x id l hwl hhl (hLl ▸ hxL) (by rw [← hLl]; exact hcl1)
        rw [← hLl] at hperm
        rw [List.map_append, List.map_append]
        exact hperm.append_right _
      · have hhr : holdsLeaf x.id r = false := by
          cases r with
          | nil => rfl
          | mk rid rv ra reL reR rl rr =>
            refine not_holds_of_no_id x.id _ hwr ?_
            intro p hp
            refine hnoR p ?_
            rw [sideLeaves]
            simpa using hp
        have hdr : delRec x.id (bn.mk id v a eL eR l r) =
            bn.mk id v a eL eR (delRec x.id l) (delRec x.id r) := by
          rw [delRec.eq_def]
          dsimp only
          rw [if_neg hhl, if_neg (by simp [hhr])]
        have hdrr : delRec x.id r = r := by
          cases r with
          | nil => rfl
          | mk rid rv ra reL reR rl rr =>
            refine delRec_id x.id _ hwr ?_
            intro p hp
            refine hnoR p ?_
            rw [sideLeaves]
            simpa using hp
        have hlmk : (delRec x.id l).isNil = false := by
          cases hl2 : l with
          | nil => rw [hl2] at hlnn; simp [bn.isNil] at hlnn
          | mk lid lv la leL leR ll lr => exact delRec_ne_nil _ _ _ _ _ _ _ _
        rw [hdr, leafListB_mk, hdrr]
        have hSL : sideLeaves eL (delRec x.id l) = leafListB (delRec x.id l) := by
          rw [sideLeaves, hlmk]
          simp
        rw [hSL]
        have hperm := ihl hwl (by simpa using hhl) (hLl ▸ hxL)
          (by rw [← hLl]; exact hcl1)
        rw [← hLl] at hperm
        rw [List.map_append, List.map_append]
        exact hperm.append_right _
    · have hxR : x ∈ sideLeaves eR r := by
        rcases List.mem_append.mp hx with h | h
        · exact absurd h hxL
        · exact h
      have hcr : 0 < ((sideLeaves eR r).map chP.id).count x.id :=
        List.count_pos_iff.mpr (List.mem_map_of_mem chP.id hxR)
      have hnoL : ∀ p ∈ sideLeaves eL l, p.id ≠ x.id := by
        intro p hp hpid
        have : x.id ∈ (sideLeaves eL l).map chP.id := by
          rw [← hpid]
          exact List.mem_map_of_mem chP.id hp
        have := List.count_pos_iff.mpr this
        omega
      have hcr1 : ((sideLeaves eR r).map chP.id).count x.id = 1 := by omega
      have hrnn : r.isNil = false := by
        by_cases hrnil : r.isNil
        · exfalso
          rw [sideLeaves_of_isNil hrnil] at hxR
          cases heR : eR with
          | none =>
            rw [heR] at hxR
            cases hxR
          | some q =>
            rw [heR] at hxR
            simp only [Option.toList_some, List.mem_singleton] at hxR
            refine absurd ?_ hh2
            rw [heR, hxR]
            rfl
        · simpa using hrnil
      have hRr : sideLeaves eR r = leafListB r := by
        rw [sideLeaves, hrnn]
        simp
      have hhl : holdsLeaf x.id l = false := by
        cases l with
        | nil => rfl
        | mk lid lv la leL leR ll lr =>
          refine not_holds_of_no_id x.id _ hwl ?_
          intro p hp
          refine hnoL p ?_
          rw [sideLeaves]
          simpa using hp
      by_cases hhr : holdsLeaf x.id r = true
      · have hdr : delRec x.id (bn.mk id v a eL eR l r) =
            bn.mk id v a eL (delChild x.id id r).1 l (delChild x.id id r).2 := by
          rw [delRec.eq_def]
          dsimp only
          rw [if_neg (by simp [hhl]), if_pos hhr]
        rw [hdr, leafListB_mk]
        have hperm := delChild_leaves x id r hwr hhr (hRr ▸ hxR)
          (by rw [← hRr]; exact hcr1)
        rw [← hRr] at hperm
        rw [List.map_append, List.map_append]
        exact (hperm.append_left _).trans List.perm_middle
      · have hdr : delRec x.id (bn.mk id v a eL eR l r) =
            bn.mk id v a eL eR (delRec x.id l) (delRec x.id r) := by
          rw [delRec.eq_def]
          dsimp only
          rw [if_neg (by simp [hhl]), if_neg hhr]
        have hdrl : delRec x.id l = l := by
          cases l with
          | nil => rfl
          | mk lid lv la leL leR ll lr =>
            refine delRec_id x.id _ hwl ?_
            intro p hp
            refine hnoL p ?_
            rw [sideLeaves]
            simpa using hp
        have hrmk : (delRec x.id r).isNil = false := by
          cases hr2 : r with
          | nil => rw [hr2] at hrnn; simp [bn.isNil] at hrnn
          | mk rid rv ra reL reR rl rr => exact delRec_ne_nil _ _ _ _ _ _ _ _
        rw [hdr, leafListB_mk, hdrl]
        have hSR : sideLeaves eR (delRec x.id r) = leafListB (delRec x.id r) := by
          rw [sideLeaves, hrmk]
          simp
        rw [hSR]
        have hperm := ihr hwr (by simpa using hhr) (hRr ▸ hxR)
          (by rw [← hRr]; exact hcr1)
        rw [← hRr] at hperm
        rw [List.map_append, List.map_append]
        exact (hperm.append_left _).trans List.perm_middle

theorem sideLeaves_none (c : bn) : sideLeaves none c = leafListB c := by
  cases c with
  | nil => rfl
  | mk id v a eL eR l r =>
    rw [sideLeaves]
    simp [bn.isNil]

theorem deleteLeaf_root_holds (t : BTree) (x : chP) (h1 : ¬ t.size = 1)
    (hgt : 1 < t.size) (hhold : holdsLeaf x.id t.root = true) :
    leafListB (deleteLeaf t x).root =
      sideLeaves (delChild x.id t.next t.root).1
        (delChild x.id t.next t.root).2 := by
  cases hroot : t.root with
  | nil =>
    rw [hroot] at hhold
    simp [holdsLeaf] at hhold
  | mk id v a eL eR l r =>
    rw [deleteLeaf.eq_def, if_neg h1, if_pos hgt, hroot]
    rw [hroot] at hhold
    rw [if_pos hhold]
    simp only [bn.eL, bn.eR, bn.l, bn.r]
    by_cases hel : eL.map chP.id = some x.id
    · rw [if_pos hel]
      cases eR with
      | some sib =>
        have hdc : delChild x.id t.next (bn.mk id v a eL (some sib) l r) =
            (some { sib with nodeRef := t.next }, bn.nil) := by
          rw [delChild.eq_def]
          dsimp only
          rw [if_pos hel]
        rw [hdc]
        dsimp only
        rw [sideLeaves_nil]
        rfl
      | none =>
        have hdc : delChild x.id t.next (bn.mk id v a eL none l r) =
            (none, r) := by
          rw [delChild.eq_def]
          dsimp only
          rw [if_pos hel]
        rw [hdc]
        dsimp only
        rw [sideLeaves_none]
    · rw [if_neg hel]
      cases eL with
      | some sib =>
        have hdc : delChild x.id t.next (bn.mk id v a (some sib) eR l r) =
            (some { sib with nodeRef := t.next }, bn.nil) := by
          rw [delChild.eq_def]
          dsimp only
          rw [if_neg hel]
        rw [hdc]
        dsimp only
        rw [sideLeaves_nil]
        rfl
      | none =>
        have hdc : delChild x.id t.next (bn.mk id v a none eR l r) =
            (none, l) := by
          rw [delChild.eq_def]
          dsimp only
          rw [if_neg hel]
        rw [hdc]
        dsimp only
        rw [sideLeaves_none]

/-- C4: for every tree containing the leaf `x` (exactly once, with the
slot/child exclusion invariant), `deleteLeaf(x)` decrements the size
counter by exactly 1, removes exactly `x` from the stored leaves — every
other leaf is kept with its data unchanged (the promoted sibling only has
its back-pointer redirected) — and in the size-1 case frees the leaf and
the root, leaving an empty tree.  The sibling-promotion and transplant
cases are the content of `deleteLeaf_root_holds`/`delRec_leaves`. -/
theorem deleteLeaf_removes (t : BTree) (x : chP)
    (hwf : wfSlots t.root = true)
    (hsz : t.size = (leafListB t.root).length)
    (hmem : x ∈ leafListB t.root)
    (hcnt : ((leafListB t.root).map chP.id).count x.id = 1) :
    (deleteLeaf t x).size = t.size - 1 ∧
    List.Perm ((leafListB t.root).map stripRef)
      (stripRef x :: (leafListB (deleteLeaf t x).root).map stripRef) ∧
    (t.size = 1 → (deleteLeaf t x).root = bn.nil) := by
  refine ⟨?_, ?_, fun h1 => by rw [deleteLeaf.eq_def, if_pos h1]⟩
  · rw [deleteLeaf.eq_def]
    by_cases h1 : t.size = 1
    · rw [if_pos h1]
    · rw [if_neg h1]
      by_cases hgt : 1 < t.size
      · rw [if_pos hgt]
        by_cases hhold : holdsLeaf x.id t.root = true
        · rw [if_pos hhold]
          by_cases hel : t.root.eL.map chP.id = some x.id
          · rw [if_pos hel]
            cases t.root.eR <;> rfl
          · rw [if_neg hel]
            cases t.root.eL <;> rfl
        · rw [if_neg hhold]
      · rw [if_neg hgt]
  · by_cases h1 : t.size = 1
    · have hlen : (leafListB t.root).length = 1 := by omega
      obtain ⟨a, ha⟩ := List.length_eq_one.mp hlen
      have hax : a = x := by
        rw [ha] at hmem
        have := List.mem_singleton.mp hmem
        rw [this]
      rw [deleteLeaf.eq_def, if_pos h1]
      rw [ha, hax]
      exact List.Perm.refl _
    · have hgt : 1 < t.size := by
        have : 0 < (leafListB t.root).length := List.length_pos.mpr
          (List.ne_nil_of_mem hmem)
        omega
      by_cases hhold : holdsLeaf x.id t.root = true
      · rw [deleteLeaf_root_holds t x h1 hgt hhold]
        exact delChild_leaves x t.next t.root hwf hhold hmem hcnt
      · have hroot : (deleteLeaf t x).root = delRec x.id t.root := by
          rw [deleteLeaf.eq_def, if_neg h1, if_pos hgt, if_neg hhold]
        rw [hroot]
        exact delRec_leaves x t.root hwf (by simpa using hhold) hmem hcnt

theorem deleteLeaf_removes_witness :
    (deleteLeaf wTree2 wLeaf1).size = wTree2.size - 1 ∧
    List.Perm ((leafListB wTree2.root).map stripRef)
      (stripRef wLeaf1 ::
        (leafListB (deleteLeaf wTree2 wLeaf1).root).map stripRef) ∧
    (wTree2.size = 1 → (deleteLeaf wTree2 wLeaf1).root = bn.nil) :=
  deleteLeaf_removes wTree2 wLeaf1 (by decide) (by decide) (by decide)
    (by decide)

/-! ## Claim C10: the split-direction index of balance -/

theorem insVar_perm (p : ℚ × ℕ) : ∀ l : List (ℚ × ℕ),
    List.Perm (insVar p l) (p :: l) := by
  intro l
  induction l with
  | nil => exact List.Perm.refl _
  | cons q rest ih =>
    rw [insVar]
    by_cases hle : p.1 ≤ q.1
    · rw [if_pos hle]
    · rw [if_neg hle]
      exact (ih.cons q).trans (List.Perm.swap p q rest)

theorem sortPairs_perm : ∀ l : List (ℚ × ℕ),
    List.Perm (l.foldr insVar []) l := by
  intro l
  induction l with
  | nil => exact List.Perm.refl _
  | cons p rest ih =>
    rw [List.foldr_cons]
    exact (insVar_perm p _).trans (ih.cons p)

theorem sortedIndices_mem (vars : List ℚ) :
    ∀ d ∈ sortedIndices vars, d < vars.length := by
  intro d hd
  rw [sortedIndices] at hd
  have hperm := sortPairs_perm (vars.enum.map (fun p => (p.2, p.1)))
  have h1 := (hperm.map (fun q : ℚ × ℕ => q.2)).mem_iff.mp hd
  simp only [List.map_map] at h1
  have h1e : ∃ x, (d, x) ∈ vars.enum := by
    simpa [Function.comp] using h1
  obtain ⟨x, hx⟩ := h1e
  have h2 : d ∈ vars.enum.map Prod.fst := by
    simp only [List.mem_map]
    exact ⟨(d, x), hx, rfl⟩
  rw [List.enum_map_fst] at h2
  exact List.mem_range.mp h2

theorem sortedIndices_length (vars : List ℚ) :
    (sortedIndices vars).length = vars.length := by
  rw [sortedIndices]
  rw [List.length_map]
  rw [(sortPairs_perm _).length_eq]
  rw [List.length_map, List.enum_length]

theorem balLoop_good (cps : List chP) (mean : List ℚ) (sIdx : List ℕ)
    (size : ℕ) (prop mxT : ℚ) (nEq : ℕ)
    (hIdx : ∀ d ∈ sIdx, d < nEq) (hnEq : 0 < nEq) :
    ∀ (fuel nbLeft nbTests : ℕ) (best : ℚ) (maxDir : ℤ),
    0 ≤ maxDir → maxDir < nEq →
    0 ≤ balLoop cps mean sIdx size prop mxT nEq fuel nbLeft nbTests best maxDir ∧
    balLoop cps mean sIdx size prop mxT nEq fuel nbLeft nbTests best maxDir < nEq := by
  intro fuel
  induction fuel with
  | zero => intro nbLeft nbTests best maxDir h0 h1; exact ⟨h0, h1⟩
  | succ k ih =>
    intro nbLeft nbTests best maxDir h0 h1
    rw [balLoop]
    by_cases hc : (((nbLeft : ℚ) < prop * size) ∨ ((nbLeft : ℚ) > (1 - prop) * size)) ∧
        ((nbTests : ℚ) < mxT) ∧ (nbTests < nEq - 1)
    · rw [if_pos hc]
      dsimp only
      have hcur : sIdx.getD (nEq - (nbTests + 1)) 0 < nEq := by
        by_cases hlt : nEq - (nbTests + 1) < sIdx.length
        · have : sIdx.getD (nEq - (nbTests + 1)) 0 ∈ sIdx := by
            rw [List.getD_eq_getElem _ _ hlt]
            exact List.getElem_mem _
          exact hIdx _ this
        · rw [List.getD_eq_default _ _ (by omega)]
          exact hnEq
      by_cases hb : |(((cps.filter (fun c => c.phi.getD (sIdx.getD (nEq - (nbTests + 1)) 0) 0 <
          mean.getD (sIdx.getD (nEq - (nbTests + 1)) 0) 0)).length : ℚ)) - (size : ℚ) * (1/2)| < best
      · rw [if_pos hb]
        exact ih _ _ _ _ (by positivity) (by exact_mod_cast hcur)
      · rw [if_neg hb]
        exact ih _ _ _ _ h0 h1
    · rw [if_neg hc]
      exact ⟨h0, h1⟩

theorem balLoop_stuck (cps : List chP) (mean : List ℚ) (sIdx : List ℕ)
    (size : ℕ) (prop mxT : ℚ) (nEq : ℕ)
    (hbad : ¬ ((0:ℚ) < mxT) ∨ nEq < 2) (fuel : ℕ) (best : ℚ) :
    balLoop cps mean sIdx size prop mxT nEq fuel 0 0 best (-1) = -1 := by
  cases fuel with
  | zero => rfl
  | succ k =>
    rw [balLoop]
    rw [if_neg]
    rintro ⟨-, h2, h3⟩
    rcases hbad with h | h
    · refine h ?_
      have : ((0:ℕ):ℚ) < mxT := h2
      simpa using this
    · omega

/-- C10 (amended): `maxDir` is initialised to -1 and assigned only inside
the dimension-selection loop of `balance()`; the loop body executes at
least once — equivalently `maxDir` is reassigned, making the subsequent
`phi()[maxDir]` accesses in-bounds — if and only if the scalar
`maxNbBalanceTest_` is > 0 and there are at least two composition
dimensions; otherwise `maxDir` stays -1 and those accesses index out of
bounds. -/
theorem abs_half_lt (n size : ℕ) (h : n ≤ size) (hs : 1 ≤ size) :
    |(n:ℚ) - (size:ℚ) * (1/2)| < (size:ℚ) := by
  rw [abs_lt]
  have h1 : (n:ℚ) ≤ size := by exact_mod_cast h
  have h2 : (1:ℚ) ≤ size := by exact_mod_cast hs
  constructor <;> nlinarith

theorem balance_maxDir_char (cfg : BalCfg) (cps : List chP) (size : ℕ)
    (hsz : 1 ≤ size) (hlen : cps.length = size)
    (hprop : 0 < cfg.balanceProp * (size : ℚ)) :
    (balanceMaxDir cfg cps size ≠ -1 ↔
      ((0:ℚ) < cfg.maxNbBalanceTest ∧ 2 ≤ cfg.nEqns)) ∧
    (balanceMaxDir cfg cps size ≠ -1 →
      0 ≤ balanceMaxDir cfg cps size ∧
      balanceMaxDir cfg cps size < cfg.nEqns) := by
  have hbmd : balanceMaxDir cfg cps size =
      balLoop cps (balMean cps size cfg.nEqns)
        (sortedIndices (balVars cps (balMean cps size cfg.nEqns) cfg.nEqns))
        size cfg.balanceProp cfg.maxNbBalanceTest cfg.nEqns cfg.nEqns 0 0
        ((size : ℕ) : ℚ) (-1) := rfl
  have hIdx : ∀ d ∈ sortedIndices (balVars cps (balMean cps size cfg.nEqns)
      cfg.nEqns), d < cfg.nEqns := by
    intro d hd
    have := sortedIndices_mem _ d hd
    rwa [balVars, List.length_map, List.length_range] at this
  have hgood : ((0:ℚ) < cfg.maxNbBalanceTest ∧ 2 ≤ cfg.nEqns) →
      0 ≤ balanceMaxDir cfg cps size ∧
      balanceMaxDir cfg cps size < cfg.nEqns := by
    rintro ⟨hmx, hnq⟩
    rw [hbmd]
    obtain ⟨k, hk⟩ : ∃ k, cfg.nEqns = k + 1 := ⟨cfg.nEqns - 1, by omega⟩
    rw [hk]
    rw [balLoop]
    rw [if_pos]
    · dsimp only
      rw [if_pos]
      · refine balLoop_good cps _ _ size _ _ _ (by rw [← hk]; exact hIdx)
          (by omega) _ _ _ _ _ ?_ ?_
        · have := hIdx (((sortedIndices (balVars cps (balMean cps size cfg.nEqns)
            cfg.nEqns))).getD (k + 1 - (0 + 1)) 0)
          positivity
        · have hcur : (sortedIndices (balVars cps (balMean cps size cfg.nEqns)
              cfg.nEqns)).getD (k + 1 - (0 + 1)) 0 < cfg.nEqns := by
            by_cases hlt : k + 1 - (0 + 1) < (sortedIndices (balVars cps
                (balMean cps size cfg.nEqns) cfg.nEqns)).length
            · refine hIdx _ ?_
              rw [List.getD_eq_getElem _ _ hlt]
              exact List.getElem_mem _
            · rw [List.getD_eq_default _ _ (by omega)]
              omega
          rw [← hk] at hcur ⊢
          exact_mod_cast hcur
      · refine abs_half_lt _ size ?_ hsz
        exact le_trans (List.length_filter_le _ _) (le_of_eq hlen)
    · refine ⟨Or.inl ?_, ?_, by omega⟩
      · simpa using hprop
      · simpa using hmx
  refine ⟨⟨?_, fun hc => by
    have := hgood hc
    omega⟩, fun hne => ?_⟩
  · intro hne
    by_contra hc
    refine hne ?_
    rw [hbmd]
    refine balLoop_stuck _ _ _ _ _ _ _ ?_ _ _
    by_cases hmx : (0:ℚ) < cfg.maxNbBalanceTest
    · refine Or.inr ?_
      by_cases hnq : 2 ≤ cfg.nEqns
      · exact absurd ⟨hmx, hnq⟩ hc
      · omega
    · exact Or.inl hmx
  · by_cases hc : (0:ℚ) < cfg.maxNbBalanceTest ∧ 2 ≤ cfg.nEqns
    · exact hgood hc
    · exfalso
      refine hne ?_
      rw [hbmd]
      refine balLoop_stuck _ _ _ _ _ _ _ ?_ _ _
      by_cases hmx : (0:ℚ) < cfg.maxNbBalanceTest
      · refine Or.inr ?_
        by_cases hnq : 2 ≤ cfg.nEqns
        · exact absurd ⟨hmx, hnq⟩ hc
        · omega
      · exact Or.inl hmx

/-- Concrete balance configuration refuting the "maxNbBalanceTest >= 1"
reading: the threshold is the scalar 1/2. -/
def c10cfg : BalCfg := ⟨2, 0, 1/2, 1⟩

def c10cps : List chP := [⟨1, 0, [0, 1], [], [], []⟩]

theorem balance_maxDir_char_witness :
    (balanceMaxDir c10cfg c10cps 1 ≠ -1 ↔
      ((0:ℚ) < c10cfg.maxNbBalanceTest ∧ 2 ≤ c10cfg.nEqns)) ∧
    (balanceMaxDir c10cfg c10cps 1 ≠ -1 →
      0 ≤ balanceMaxDir c10cfg c10cps 1 ∧
      balanceMaxDir c10cfg c10cps 1 < c10cfg.nEqns) :=
  balance_maxDir_char c10cfg c10cps 1 (by decide) rfl (by norm_num [c10cfg])

/-- C10, counterexample to the claim as stated: with
`maxNbBalanceTest_ = 1/2` (a scalar, as the constructor's
`lookupOrDefault("maxNbBalanceTest", 0.01*nSpecie())` makes it) and two
composition dimensions, the selection loop body executes and assigns
`maxDir` (so `maxDir ≠ -1`) even though `maxNbBalanceTest >= 1` fails:
"executes at least once requires maxNbBalanceTest >= 1" is wrong, the
exact bound is `> 0`. -/
theorem balance_maxDir_counterexample :
    balanceMaxDir c10cfg c10cps 1 ≠ -1 ∧
    ¬ ((1:ℚ) ≤ c10cfg.maxNbBalanceTest) := by
  constructor
  · norm_num [balanceMaxDir, balMean, balVars, sortedIndices, insVar, balLoop,
      List.enum, List.enumFrom, c10cfg, c10cps, abs_lt]
  · norm_num [c10cfg]

/-! ## Claim C6: the extreme-leaf selection of balance -/

/-- Invariant of the running maximum of the extreme-leaf scan
(maxPhi starts at 0, maxId at -1). -/
def ExtMaxInv (d : ℤ) (st : ExtSt) (P : List (ℕ × chP)) : Prop :=
  (st.maxPhi = 0 ∧ st.maxId = -1 ∧ ∀ pc ∈ P, phiAt pc.2 d ≤ 0) ∨
  (∃ pc ∈ P, st.maxId = (pc.1 : ℤ) ∧ st.maxPhi = phiAt pc.2 d ∧
    0 < st.maxPhi ∧ ∀ pc' ∈ P, phiAt pc'.2 d ≤ st.maxPhi)

/-- Invariant of the running minimum of the extreme-leaf scan
(minPhi starts at GREAT, minId at -1). -/
def ExtMinInv (d : ℤ) (st : ExtSt) (P : List (ℕ × chP)) : Prop :=
  (st.minPhi = GREAT ∧ st.minId = -1 ∧ ∀ pc ∈ P, GREAT ≤ phiAt pc.2 d) ∨
  (∃ pc ∈ P, st.minId = (pc.1 : ℤ) ∧ st.minPhi = phiAt pc.2 d ∧
    st.minPhi < GREAT ∧ ∀ pc' ∈ P, st.minPhi ≤ phiAt pc'.2 d)

theorem extStep_max (d : ℤ) (st : ExtSt) (jc : ℕ × chP)
    (P : List (ℕ × chP)) (h : ExtMaxInv d st P) :
    ExtMaxInv d (extStep d st jc) (P ++ [jc]) := by
  rw [extStep]
  by_cases hgt : phiAt jc.2 d > st.maxPhi
  · refine Or.inr ⟨jc, List.mem_append_right _ (by simp), ?_, ?_, ?_, ?_⟩
    · show (if phiAt jc.2 d > st.maxPhi then ((jc.1 : ℤ)) else st.maxId) = _
      rw [if_pos hgt]
    · show (if phiAt jc.2 d > st.maxPhi then phiAt jc.2 d else st.maxPhi) = _
      rw [if_pos hgt]
    · show 0 < (if phiAt jc.2 d > st.maxPhi then phiAt jc.2 d else st.maxPhi)
      rw [if_pos hgt]
      rcases h with ⟨h0, -, -⟩ | ⟨pc, -, -, -, hpos, -⟩
      · rw [h0] at hgt
        exact hgt
      · exact lt_trans hpos hgt
    · intro pc' hpc'
      show _ ≤ (if phiAt jc.2 d > st.maxPhi then phiAt jc.2 d else st.maxPhi)
      rw [if_pos hgt]
      rcases List.mem_append.mp hpc' with hm | hm
      · rcases h with ⟨h0, -, hall⟩ | ⟨pc, -, -, -, -, hall⟩
        · rw [h0] at hgt
          exact le_trans (hall pc' hm) (le_of_lt hgt)
        · exact le_trans (hall pc' hm) (le_of_lt hgt)
      · rw [List.mem_singleton.mp hm]
  · rcases h with ⟨h0, hid, hall⟩ | ⟨pc, hpc, hid, hval, hpos, hall⟩
    · refine Or.inl ⟨?_, ?_, ?_⟩
      · show (if phiAt jc.2 d > st.maxPhi then phiAt jc.2 d else st.maxPhi) = 0
        rw [if_neg hgt]
        exact h0
      · show (if phiAt jc.2 d > st.maxPhi then ((jc.1 : ℤ)) else st.maxId) = -1
        rw [if_neg hgt]
        exact hid
      · intro pc' hpc'
        rcases List.mem_append.mp hpc' with hm | hm
        · exact hall pc' hm
        · rw [List.mem_singleton.mp hm]
          rw [h0] at hgt
          exact le_of_not_lt hgt
    · refine Or.inr ⟨pc, List.mem_append_left _ hpc, ?_, ?_, ?_, ?_⟩
      · show (if phiAt jc.2 d > st.maxPhi then ((jc.1 : ℤ)) else st.maxId) = _
        rw [if_neg hgt]
        exact hid
      · show (if phiAt jc.2 d > st.maxPhi then phiAt jc.2 d else st.maxPhi) = _
        rw [if_neg hgt]
        exact hval
      · show 0 < (if phiAt jc.2 d > st.maxPhi then phiAt jc.2 d else st.maxPhi)
        rw [if_neg hgt]
        exact hpos
      · intro pc' hpc'
        show _ ≤ (if phiAt jc.2 d > st.maxPhi then phiAt jc.2 d else st.maxPhi)
        rw [if_neg hgt]
        rcases List.mem_append.mp hpc' with hm | hm
        · exact hall pc' hm
        · rw [List.mem_singleton.mp hm]
          exact le_of_not_lt hgt

theorem extStep_min (d : ℤ) (st : ExtSt) (jc : ℕ × chP)
    (P : List (ℕ × chP)) (h : ExtMinInv d st P) :
    ExtMinInv d (extStep d st jc) (P ++ [jc]) := by
  rw [extStep]
  by_cases hlt : phiAt jc.2 d < st.minPhi
  · refine Or.inr ⟨jc, List.mem_append_right _ (by simp), ?_, ?_, ?_, ?_⟩
    · show (if phiAt jc.2 d < st.minPhi then ((jc.1 : ℤ)) else st.minId) = _
      rw [if_pos hlt]
    · show (if phiAt jc.2 d < st.minPhi then phiAt jc.2 d else st.minPhi) = _
      rw [if_pos hlt]
    · show (if phiAt jc.2 d < st.minPhi then phiAt jc.2 d else st.minPhi) < GREAT
      rw [if_pos hlt]
      rcases h with ⟨h0, -, -⟩ | ⟨pc, -, -, -, hsm, -⟩
      · rw [h0] at hlt
        exact hlt
      · exact lt_trans hlt hsm
    · intro pc' hpc'
      show (if phiAt jc.2 d < st.minPhi then phiAt jc.2 d else st.minPhi) ≤ _
      rw [if_pos hlt]
      rcases List.mem_append.mp hpc' with hm | hm
      · rcases h with ⟨h0, -, hall⟩ | ⟨pc, -, -, -, -, hall⟩
        · rw [h0] at hlt
          exact le_trans (le_of_lt hlt) (hall pc' hm)
        · exact le_trans (le_of_lt hlt) (hall pc' hm)
      · rw [List.mem_singleton.mp hm]
  · rcases h with ⟨h0, hid, hall⟩ | ⟨pc, hpc, hid, hval, hsm, hall⟩
    · refine Or.inl ⟨?_, ?_, ?_⟩
      · show (if phiAt jc.2 d < st.minPhi then phiAt jc.2 d else st.minPhi) = GREAT
        rw [if_neg hlt]
        exact h0
      · show (if phiAt jc.2 d < st.minPhi then ((jc.1 : ℤ)) else st.minId) = -1
        rw [if_neg hlt]
        exact hid
      · intro pc' hpc'
        rcases List.mem_append.mp hpc' with hm | hm
        · exact hall pc' hm
        · rw [List.mem_singleton.mp hm]
          rw [h0] at hlt
          exact le_of_not_lt hlt
    · refine Or.inr ⟨pc, List.mem_append_left _ hpc, ?_, ?_, ?_, ?_⟩
      · show (if phiAt jc.2 d < st.minPhi then ((jc.1 : ℤ)) else st.minId) = _
        rw [if_neg hlt]
        exact hid
      · show (if phiAt jc.2 d < st.minPhi then phiAt jc.2 d else st.minPhi) = _
        rw [if_neg hlt]
        exact hval
      · show (if phiAt jc.2 d < st.minPhi then phiAt jc.2 d else st.minPhi) < GREAT
        rw [if_neg hlt]
        exact hsm
      · intro pc' hpc'
        show (if phiAt jc.2 d < st.minPhi then phiAt jc.2 d else st.minPhi) ≤ _
        rw [if_neg hlt]
        rcases List.mem_append.mp hpc' with hm | hm
        · exact hall pc' hm
        · rw [List.mem_singleton.mp hm]
          exact le_of_not_lt hlt

theorem extFold_inv (d : ℤ) :
    ∀ (L P : List (ℕ × chP)) (st : ExtSt),
    ExtMaxInv d st P → ExtMinInv d st P →
    ExtMaxInv d (L.foldl (extStep d) st) (P ++ L) ∧
    ExtMinInv d (L.foldl (extStep d) st) (P ++ L) := by
  intro L
  induction L with
  | nil =>
    intro P st hmax hmin
    rw [List.foldl_nil, List.append_nil]
    exact ⟨hmax, hmin⟩
  | cons jc rest ih =>
    intro P st hmax hmin
    rw [List.foldl_cons]
    have := ih (P ++ [jc]) (extStep d st jc) (extStep_max d st jc P hmax)
      (extStep_min d st jc P hmin)
    rwa [List.append_assoc, List.singleton_append] at this

theorem enum_mem_spec (cps : List chP) (pc : ℕ × chP) (h : pc ∈ cps.enum) :
    pc.1 < cps.length ∧ cps.getD pc.1 default = pc.2 := by
  have h2 := List.mem_enum_iff_getElem?.mp h
  have h3 : pc.1 < cps.length := by
    by_contra hc
    rw [List.getElem?_eq_none (by omega)] at h2
    cases h2
  refine ⟨h3, ?_⟩
  rw [List.getD_eq_getElem _ _ h3]
  rw [List.getElem?_eq_getElem h3] at h2
  exact Option.some.inj h2

theorem findExtremes_inv (cps : List chP) (d : ℤ) :
    ExtMaxInv d (cps.enum.foldl (extStep d) ⟨0, GREAT, -1, -1⟩) cps.enum ∧
    ExtMinInv d (cps.enum.foldl (extStep d) ⟨0, GREAT, -1, -1⟩) cps.enum := by
  have h := extFold_inv d cps.enum [] ⟨0, GREAT, -1, -1⟩
    (Or.inl ⟨rfl, rfl, fun pc hpc => absurd hpc (List.not_mem_nil pc)⟩)
    (Or.inl ⟨rfl, rfl, fun pc hpc => absurd hpc (List.not_mem_nil pc)⟩)
  rwa [List.nil_append] at h

theorem findExtremes_max_spec (cps : List chP) (d : ℤ)
    (h : ∃ pc ∈ cps.enum, 0 < phiAt pc.2 d) :
    0 ≤ (findExtremes cps d).1 ∧
    (findExtremes cps d).1.toNat < cps.length ∧
    ∀ pc ∈ cps.enum, phiAt pc.2 d ≤ phiAt (cpAt cps (findExtremes cps d).1) d := by
  obtain ⟨pc0, hpc0, hpos0⟩ := h
  have hinv := (findExtremes_inv cps d).1
  have hfe : (findExtremes cps d).1 =
      (cps.enum.foldl (extStep d) ⟨0, GREAT, -1, -1⟩).maxId := rfl
  rcases hinv with ⟨-, -, hall⟩ | ⟨pcM, hpcM, hid, hval, -, hall⟩
  · exact absurd (hall pc0 hpc0) (not_le.mpr hpos0)
  · obtain ⟨hlt, hget⟩ := enum_mem_spec cps pcM hpcM
    have hcp : cpAt cps (findExtremes cps d).1 = pcM.2 := by
      rw [hfe, hid, cpAt, if_pos (Int.natCast_nonneg _), Int.toNat_natCast]
      exact hget
    refine ⟨?_, ?_, ?_⟩
    · rw [hfe, hid]
      exact Int.natCast_nonneg _
    · rw [hfe, hid, Int.toNat_natCast]
      exact hlt
    · intro pc hpc
      rw [hcp, ← hval]
      exact hall pc hpc

theorem findExtremes_min_spec (cps : List chP) (d : ℤ)
    (h : ∃ pc ∈ cps.enum, phiAt pc.2 d < GREAT) :
    0 ≤ (findExtremes cps d).2 ∧
    (findExtremes cps d).2.toNat < cps.length ∧
    ∀ pc ∈ cps.enum, phiAt (cpAt cps (findExtremes cps d).2) d ≤ phiAt pc.2 d := by
  obtain ⟨pc0, hpc0, hlt0⟩ := h
  have hinv := (findExtremes_inv cps d).2
  have hfe : (findExtremes cps d).2 =
      (cps.enum.foldl (extStep d) ⟨0, GREAT, -1, -1⟩).minId := rfl
  rcases hinv with ⟨-, -, hall⟩ | ⟨pcM, hpcM, hid, hval, -, hall⟩
  · exact absurd (hall pc0 hpc0) (not_le.mpr hlt0)
  · obtain ⟨hlt, hget⟩ := enum_mem_spec cps pcM hpcM
    have hcp : cpAt cps (findExtremes cps d).2 = pcM.2 := by
      rw [hfe, hid, cpAt, if_pos (Int.natCast_nonneg _), Int.toNat_natCast]
      exact hget
    refine ⟨?_, ?_, ?_⟩
    · rw [hfe, hid]
      exact Int.natCast_nonneg _
    · rw [hfe, hid, Int.toNat_natCast]
      exact hlt
    · intro pc hpc
      rw [hcp, ← hval]
      exact hall pc hpc

/-- C6 (amended): after the split dimension `d = maxDir` is chosen, the
extreme-leaf scan of `balance()` selects two genuine stored-leaf indices and
makes those leaves the children of the newly constructed root node — the
right child (`maxRef`) attaining the maximum of `phi[d]` over all stored
leaves and the left child (`minRef`) the minimum — PROVIDED some stored
leaf has `phi[d] > 0` and some stored leaf has `phi[d] < GREAT` (the scan's
running maximum starts at 0 and its running minimum at GREAT, with both
indices at -1, so the unconditional "for every collection of stored
leaves" of the claim fails). -/
theorem balance_extreme_children (cfg : BalCfg) (rnd : ℕ → ℕ) (t : BTree)
    (hmax : ∃ pc ∈ (leafListB t.root).enum,
      0 < phiAt pc.2 (balanceMaxDir cfg (leafListB t.root) t.size))
    (hmin : ∃ pc ∈ (leafListB t.root).enum,
      phiAt pc.2 (balanceMaxDir cfg (leafListB t.root) t.size) < GREAT) :
    (0 ≤ (balanceIds cfg t).1 ∧
      (balanceIds cfg t).1.toNat < (leafListB t.root).length) ∧
    (0 ≤ (balanceIds cfg t).2 ∧
      (balanceIds cfg t).2.toNat < (leafListB t.root).length) ∧
    (balanceNewRoot cfg t).eR =
      some { cpAt (leafListB t.root) (balanceIds cfg t).1 with nodeRef := t.next } ∧
    (balanceNewRoot cfg t).eL =
      some { cpAt (leafListB t.root) (balanceIds cfg t).2 with nodeRef := t.next } ∧
    (∀ pc ∈ (leafListB t.root).enum,
      phiAt pc.2 (balanceMaxDir cfg (leafListB t.root) t.size) ≤
      phiAt (cpAt (leafListB t.root) (balanceIds cfg t).1)
        (balanceMaxDir cfg (leafListB t.root) t.size)) ∧
    (∀ pc ∈ (leafListB t.root).enum,
      phiAt (cpAt (leafListB t.root) (balanceIds cfg t).2)
        (balanceMaxDir cfg (leafListB t.root) t.size) ≤
      phiAt pc.2 (balanceMaxDir cfg (leafListB t.root) t.size)) ∧
    (cfg.minBalanceThreshold < (t.size : ℚ) → (balance cfg rnd t).2 = true) := by
  have hM := findExtremes_max_spec (leafListB t.root)
    (balanceMaxDir cfg (leafListB t.root) t.size) hmax
  have hm := findExtremes_min_spec (leafListB t.root)
    (balanceMaxDir cfg (leafListB t.root) t.size) hmin
  refine ⟨⟨hM.1, hM.2.1⟩, ⟨hm.1, hm.2.1⟩, rfl, rfl, hM.2.2, hm.2.2, ?_⟩
  intro htrig
  rw [balance.eq_def, if_pos htrig]

/-- Balance configuration for the C6 instances: two composition
dimensions, trigger threshold 1, one direction test allowed. -/
def c6cfg : BalCfg := ⟨2, 1, 1, 35/100⟩

def c6ca : chP := ⟨1, 50, [-1, -2], [], [], []⟩

def c6cb : chP := ⟨2, 50, [-3, -4], [], [], []⟩

/-- A tree of two stored leaves whose compositions are all negative. -/
def c6cTree : BTree :=
  { root := bn.mk 50 [] 0 (some c6ca) (some c6cb) bn.nil bn.nil
    size := 2, next := 51 }

theorem c6c_maxDir : balanceMaxDir c6cfg (leafListB c6cTree.root) c6cTree.size = 1 := by
  have hl : leafListB c6cTree.root = [c6ca, c6cb] := rfl
  rw [hl]
  show balanceMaxDir c6cfg [c6ca, c6cb] 2 = 1
  norm_num [balanceMaxDir, balMean, balVars, sortedIndices, insVar, balLoop,
    List.enum, List.enumFrom, c6cfg, c6ca, c6cb, abs_lt]

theorem c6c_ids : balanceIds c6cfg c6cTree = (-1, 1) := by
  have hl : leafListB c6cTree.root = [c6ca, c6cb] := rfl
  show findExtremes (leafListB c6cTree.root)
    (balanceMaxDir c6cfg (leafListB c6cTree.root) c6cTree.size) = (-1, 1)
  rw [c6c_maxDir, hl]
  norm_num [findExtremes, extStep, phiAt, List.enum, List.enumFrom, c6ca, c6cb,
    GREAT]

/-- C6, counterexample to the claim as stated: with two stored leaves whose
compositions are all negative in the chosen direction (`maxDir = 1`), the
first leaf attains the maximum of `phi[1]` over the stored leaves, yet the
scan's `maxId` stays at its initial -1 (the running maximum starts at 0 and
is never beaten), so `maxRef = chemPoints[-1]` is an out-of-bounds read:
the right child of the newly constructed root is the junk leaf (id 0),
which is none of the stored leaves — the extreme leaves are NOT selected
for every collection of stored leaves. -/
theorem balance_extreme_children_counterexample :
    (∀ c ∈ leafListB c6cTree.root,
      phiAt c (balanceMaxDir c6cfg (leafListB c6cTree.root) c6cTree.size) ≤
      phiAt c6ca (balanceMaxDir c6cfg (leafListB c6cTree.root) c6cTree.size)) ∧
    (balanceIds c6cfg c6cTree).1 = -1 ∧
    (balanceNewRoot c6cfg c6cTree).eR.map chP.id = some 0 ∧
    (∀ c ∈ leafListB c6cTree.root, 1 ≤ c.id) := by
  have hl : leafListB c6cTree.root = [c6ca, c6cb] := rfl
  refine ⟨?_, ?_, ?_, ?_⟩
  · rw [c6c_maxDir, hl]
    intro c hc
    rcases List.mem_cons.mp hc with h | h
    · rw [h]
    · rw [List.mem_singleton.mp h]
      norm_num [phiAt, c6ca, c6cb]
  · rw [c6c_ids]
  · show (mkNode c6cTree.next (cpAt (leafListB c6cTree.root) (balanceIds c6cfg c6cTree).2)
      (cpAt (leafListB c6cTree.root) (balanceIds c6cfg c6cTree).1)).eR.map chP.id = some 0
    rw [c6c_ids, hl]
    norm_num [mkNode, cpAt, bn.eR]
    rfl
  · rw [hl]
    intro c hc
    rcases List.mem_cons.mp hc with h | h
    · rw [h]
      norm_num [c6ca]
    · rw [List.mem_singleton.mp h]
      norm_num [c6cb]

def c6wa : chP := ⟨1, 30, [0, 1], [], [], []⟩

def c6wb : chP := ⟨2, 30, [0, 4], [], [], []⟩

/-- A tree of two stored leaves on which the extreme-leaf selection works. -/
def c6wTree : BTree :=
  { root := bn.mk 30 [] 0 (some c6wa) (some c6wb) bn.nil bn.nil
    size := 2, next := 31 }

theorem c6w_maxDir : balanceMaxDir c6cfg (leafListB c6wTree.root) c6wTree.size = 1 := by
  have hl : leafListB c6wTree.root = [c6wa, c6wb] := rfl
  rw [hl]
  show balanceMaxDir c6cfg [c6wa, c6wb] 2 = 1
  norm_num [balanceMaxDir, balMean, balVars, sortedIndices, insVar, balLoop,
    List.enum, List.enumFrom, c6cfg, c6wa, c6wb, abs_lt]

theorem balance_extreme_children_witness :
    (∃ pc ∈ (leafListB c6wTree.root).enum,
      0 < phiAt pc.2 (balanceMaxDir c6cfg (leafListB c6wTree.root) c6wTree.size)) ∧
    (∃ pc ∈ (leafListB c6wTree.root).enum,
      phiAt pc.2 (balanceMaxDir c6cfg (leafListB c6wTree.root) c6wTree.size) < GREAT) ∧
    ((0 ≤ (balanceIds c6cfg c6wTree).1 ∧
      (balanceIds c6cfg c6wTree).1.toNat < (leafListB c6wTree.root).length) ∧
    (0 ≤ (balanceIds c6cfg c6wTree).2 ∧
      (balanceIds c6cfg c6wTree).2.toNat < (leafListB c6wTree.root).length) ∧
    (balanceNewRoot c6cfg c6wTree).eR =
      some { cpAt (leafListB c6wTree.root) (balanceIds c6cfg c6wTree).1 with
        nodeRef := c6wTree.next } ∧
    (balanceNewRoot c6cfg c6wTree).eL =
      some { cpAt (leafListB c6wTree.root) (balanceIds c6cfg c6wTree).2 with
        nodeRef := c6wTree.next } ∧
    (∀ pc ∈ (leafListB c6wTree.root).enum,
      phiAt pc.2 (balanceMaxDir c6cfg (leafListB c6wTree.root) c6wTree.size) ≤
      phiAt (cpAt (leafListB c6wTree.root) (balanceIds c6cfg c6wTree).1)
        (balanceMaxDir c6cfg (leafListB c6wTree.root) c6wTree.size)) ∧
    (∀ pc ∈ (leafListB c6wTree.root).enum,
      phiAt (cpAt (leafListB c6wTree.root) (balanceIds c6cfg c6wTree).2)
        (balanceMaxDir c6cfg (leafListB c6wTree.root) c6wTree.size) ≤
      phiAt pc.2 (balanceMaxDir c6cfg (leafListB c6wTree.root) c6wTree.size)) ∧
    (c6cfg.minBalanceThreshold < (c6wTree.size : ℚ) →
      (balance c6cfg (fun i => i) c6wTree).2 = true)) := by
  have h1 : ∃ pc ∈ (leafListB c6wTree.root).enum,
      0 < phiAt pc.2 (balanceMaxDir c6cfg (leafListB c6wTree.root) c6wTree.size) := by
    refine ⟨(0, c6wa), by decide, ?_⟩
    rw [c6w_maxDir]
    norm_num [phiAt, c6wa]
  have h2 : ∃ pc ∈ (leafListB c6wTree.root).enum,
      phiAt pc.2 (balanceMaxDir c6cfg (leafListB c6wTree.root) c6wTree.size) < GREAT := by
    refine ⟨(0, c6wa), by decide, ?_⟩
    rw [c6w_maxDir]
    norm_num [phiAt, c6wa, GREAT]
  exact ⟨h1, h2, balance_extreme_children c6cfg (fun i => i) c6wTree h1 h2⟩

/-! ## Claim C5: balance conserves the stored leaves -/

theorem count_set_aux (l : List ℕ) (i : ℕ) (h : i < l.length) (b x : ℕ) :
    (l.set i b).count x + (if l.getD i 0 = x then 1 else 0) =
    l.count x + (if b = x then 1 else 0) := by
  rw [List.getD_eq_getElem l 0 h]
  rw [List.set_eq_take_cons_drop b h]
  conv_rhs => rw [← List.take_append_drop i l, List.drop_eq_getElem_cons h]
  rw [List.count_append, List.count_append, List.count_cons, List.count_cons]
  by_cases c1 : b = x
  · by_cases c2 : l[i] = x
    · rw [if_pos c1, if_pos c2, if_pos (by simpa using c1), if_pos (by simpa using c2)]
    · rw [if_pos c1, if_neg c2, if_pos (by simpa using c1), if_neg (by simpa using c2)]
      omega
  · by_cases c2 : l[i] = x
    · rw [if_neg c1, if_pos c2, if_neg (by simpa using c1), if_pos (by simpa using c2)]
      omega
    · rw [if_neg c1, if_neg c2, if_neg (by simpa using c1), if_neg (by simpa using c2)]

theorem listSwap_perm (l : List ℕ) (i j : ℕ) (hi : i < l.length)
    (hj : j < l.length) : (listSwap l i j).Perm l := by
  rw [List.perm_iff_count]
  intro x
  rw [listSwap]
  have hlen1 : (l.set i (l.getD j 0)).length = l.length := by simp
  have hj1 : j < (l.set i (l.getD j 0)).length := by rw [hlen1]; exact hj
  have h3 : (l.set i (l.getD j 0)).getD j 0 = l.getD j 0 := by
    rw [List.getD_eq_getElem _ 0 hj1]
    rw [List.getElem_set]
    by_cases hij : i = j
    · rw [if_pos hij]
    · rw [if_neg hij]
      exact (List.getD_eq_getElem l 0 hj).symm
  have h1 := count_set_aux (l.set i (l.getD j 0)) j hj1 (l.getD i 0) x
  have h2 := count_set_aux l i hi (l.getD j 0) x
  rw [h3] at h1
  by_cases c1 : l.getD j 0 = x
  · rw [if_pos c1] at h1 h2
    by_cases c2 : l.getD i 0 = x
    · rw [if_pos c2] at h1 h2
      omega
    · rw [if_neg c2] at h1 h2
      omega
  · rw [if_neg c1] at h1 h2
    by_cases c2 : l.getD i 0 = x
    · rw [if_pos c2] at h1 h2
      omega
    · rw [if_neg c2] at h1 h2
      omega

theorem foldSwap_perm (sz : ℕ) (rnd : ℕ → ℕ) (hrnd : ∀ i, i < sz → rnd i < sz) :
    ∀ (li : List ℕ), (∀ i ∈ li, i < sz) → ∀ (acc : List ℕ),
    acc.Perm (List.range sz) →
    (li.foldl (fun l i => listSwap l i (rnd i)) acc).Perm (List.range sz) := by
  intro li
  induction li with
  | nil => intro _ acc hacc; exact hacc
  | cons i rest ih =>
    intro hmem acc hacc
    rw [List.foldl_cons]
    refine ih (fun k hk => hmem k (List.mem_cons_of_mem i hk)) _ ?_
    have hlen : acc.length = sz := by
      rw [hacc.length_eq, List.length_range]
    have hi : i < acc.length := by
      rw [hlen]; exact hmem i (List.mem_cons_self i rest)
    have hr : rnd i < acc.length := by
      rw [hlen]; exact hrnd i (hmem i (List.mem_cons_self i rest))
    exact (listSwap_perm acc i (rnd i) hi hr).trans hacc

theorem fisherYates_perm (sz : ℕ) (rnd : ℕ → ℕ)
    (hrnd : ∀ i, i < sz → rnd i < sz) :
    (fisherYates sz rnd).Perm (List.range sz) := by
  rw [fisherYates]
  exact foldSwap_perm sz rnd hrnd (List.range sz)
    (fun i hi => List.mem_range.mp hi) (List.range sz) (List.Perm.refl _)

theorem sidesOK_mk_iff (id : ℕ) (v : List ℚ) (a : ℚ) (eL eR : Option chP)
    (l r : bn) :
    sidesOK (bn.mk id v a eL eR l r) = true ↔
    ((if l.isNil then eL.isSome else sidesOK l) = true ∧
     (if r.isNil then eR.isSome else sidesOK r) = true) := by
  rw [sidesOK.eq_def]
  simp only [Bool.and_eq_true]

theorem sidesOK_mkNode (nid : ℕ) (pl pr : chP) :
    sidesOK (mkNode nid pl pr) = true := rfl

theorem leafListB_mkNode (nid : ℕ) (pl pr : chP) :
    leafListB (mkNode nid pl pr) =
    [{ pl with nodeRef := nid }, { pr with nodeRef := nid }] := rfl

theorem stripRef_updateRef (p : chP) (nid : ℕ) :
    stripRef { p with nodeRef := nid } = stripRef p := rfl

theorem sideLeaves_not_nil {c : bn} (h : c.isNil = false) (e : Option chP) :
    sideLeaves e c = leafListB c := by
  rw [sideLeaves, if_neg]
  simp [h]

theorem perm_snoc_pair {α : Type} (S : List α) (x y : α) :
    (S ++ [x, y]).Perm (y :: (S ++ [x])) := by
  have t1 : (S ++ [x, y]).Perm (x :: (S ++ [y])) := List.perm_middle
  have t2 : (S ++ [y]).Perm (y :: (S ++ [])) := List.perm_middle
  have t4 : (x :: y :: (S ++ [])).Perm (y :: x :: (S ++ [])) :=
    List.Perm.swap y x (S ++ [])
  have t5 : (x :: (S ++ [])).Perm (S ++ [x]) := List.perm_middle.symm
  exact ((t1.trans (t2.cons x)).trans t4).trans (t5.cons y)

theorem insertAtSearchB_leaves (phiq : List ℚ) (nid : ℕ) (newL : chP) (b : bn)
    (hs : sidesOK b = true) (hnn : b.isNil = false) :
    List.Perm ((leafListB (insertAtSearchB phiq nid newL b)).map stripRef)
      (stripRef newL :: (leafListB b).map stripRef) ∧
    sidesOK (insertAtSearchB phiq nid newL b) = true ∧
    (insertAtSearchB phiq nid newL b).isNil = false := by
  induction b with
  | nil => simp [bn.isNil] at hnn
  | mk id v a eL eR l r ihl ihr =>
    rw [sidesOK_mk_iff] at hs
    obtain ⟨hsl, hsr⟩ := hs
    rw [insertAtSearchB.eq_def]
    dsimp only
    by_cases hd : dotp phiq v > a
    · rw [if_pos hd]
      by_cases hr : r.isNil
      · rw [if_pos hr]
        rw [if_pos hr] at hsr
        cases eR with
        | none => simp at hsr
        | some p =>
          refine ⟨?_, ?_, rfl⟩
          · rw [leafListB_mk, leafListB_mk, sideLeaves_none,
              sideLeaves_of_isNil hr, leafListB_mkNode]
            rw [List.map_append, List.map_append]
            show List.Perm (List.map stripRef (sideLeaves eL l) ++
                [stripRef p, stripRef newL])
              (stripRef newL :: (List.map stripRef (sideLeaves eL l) ++ [stripRef p]))
            exact perm_snoc_pair _ _ _
          · rw [sidesOK_mk_iff]
            refine ⟨hsl, ?_⟩
            rw [if_neg (by simp [mkNode, bn.isNil])]
            exact sidesOK_mkNode nid p newL
      · rw [if_neg hr]
        have hrnn : r.isNil = false := by
          cases hh : r.isNil
          · rfl
          · exact absurd hh hr
        rw [if_neg hr] at hsr
        obtain ⟨hp, hs2, hnn2⟩ := ihr hsr hrnn
        refine ⟨?_, ?_, rfl⟩
        · rw [leafListB_mk, leafListB_mk, sideLeaves_not_nil hnn2,
            sideLeaves_not_nil hrnn]
          rw [List.map_append, List.map_append]
          exact (hp.append_left _).trans List.perm_middle
        · rw [sidesOK_mk_iff]
          refine ⟨hsl, ?_⟩
          rw [if_neg (by simp [hnn2])]
          exact hs2
    · rw [if_neg hd]
      by_cases hl : l.isNil
      · rw [if_pos hl]
        rw [if_pos hl] at hsl
        cases eL with
        | none => simp at hsl
        | some p =>
          refine ⟨?_, ?_, rfl⟩
          · rw [leafListB_mk, leafListB_mk, sideLeaves_none,
              sideLeaves_of_isNil hl, leafListB_mkNode]
            rw [List.map_append, List.map_append]
            show List.Perm (stripRef p :: stripRef newL ::
                List.map stripRef (sideLeaves eR r))
              (stripRef newL :: stripRef p :: List.map stripRef (sideLeaves eR r))
            exact List.Perm.swap _ _ _
          · rw [sidesOK_mk_iff]
            refine ⟨?_, hsr⟩
            rw [if_neg (by simp [mkNode, bn.isNil])]
            exact sidesOK_mkNode nid p newL
      · rw [if_neg hl]
        have hlnn : l.isNil = false := by
          cases hh : l.isNil
          · rfl
          · exact absurd hh hl
        rw [if_neg hl] at hsl
        obtain ⟨hp, hs2, hnn2⟩ := ihl hsl hlnn
        refine ⟨?_, ?_, rfl⟩
        · rw [leafListB_mk, leafListB_mk, sideLeaves_not_nil hnn2,
            sideLeaves_not_nil hlnn]
          rw [List.map_append, List.map_append]
          exact hp.append_right _
        · rw [sidesOK_mk_iff]
          refine ⟨?_, hsr⟩
          rw [if_neg (by simp [hnn2])]
          exact hs2

theorem foldIns_leaves (cps : List chP) (mi ma : ℤ) :
    ∀ (li : List ℕ) (st : bn × ℕ), sidesOK st.1 = true → st.1.isNil = false →
    sidesOK ((li.foldl (fun (st : bn × ℕ) (idx : ℕ) =>
      if (idx : ℤ) ≠ mi ∧ (idx : ℤ) ≠ ma then
        (insertAtSearchB (cpAt cps (idx : ℤ)).phi st.2 (cpAt cps (idx : ℤ)) st.1,
         st.2 + 1)
      else st) st).1) = true ∧
    ((li.foldl (fun (st : bn × ℕ) (idx : ℕ) =>
      if (idx : ℤ) ≠ mi ∧ (idx : ℤ) ≠ ma then
        (insertAtSearchB (cpAt cps (idx : ℤ)).phi st.2 (cpAt cps (idx : ℤ)) st.1,
         st.2 + 1)
      else st) st).1).isNil = false ∧
    List.Perm ((leafListB ((li.foldl (fun (st : bn × ℕ) (idx : ℕ) =>
      if (idx : ℤ) ≠ mi ∧ (idx : ℤ) ≠ ma then
        (insertAtSearchB (cpAt cps (idx : ℤ)).phi st.2 (cpAt cps (idx : ℤ)) st.1,
         st.2 + 1)
      else st) st).1)).map stripRef)
      ((li.filter (fun (idx : ℕ) => decide ((idx : ℤ) ≠ mi ∧ (idx : ℤ) ≠ ma))).map
        (fun (idx : ℕ) => stripRef (cpAt cps (idx : ℤ))) ++
        (leafListB st.1).map stripRef) := by
  intro li
  induction li with
  | nil =>
    intro st h1 h2
    exact ⟨h1, h2, List.Perm.refl _⟩
  | cons i rest ih =>
    intro st h1 h2
    rw [List.foldl_cons]
    by_cases hc : (i : ℤ) ≠ mi ∧ (i : ℤ) ≠ ma
    · rw [if_pos hc]
      obtain ⟨hp, hs2, hnn2⟩ := insertAtSearchB_leaves
        (cpAt cps (i : ℤ)).phi st.2 (cpAt cps (i : ℤ)) st.1 h1 h2
      obtain ⟨g1, g2, g3⟩ := ih
        (insertAtSearchB (cpAt cps (i : ℤ)).phi st.2 (cpAt cps (i : ℤ)) st.1, st.2 + 1)
        hs2 hnn2
      refine ⟨g1, g2, ?_⟩
      rw [List.filter_cons, if_pos (by simpa using hc)]
      refine g3.trans ?_
      refine ((hp.append_left _).trans ?_)
      rw [List.map_cons]
      exact List.perm_middle
    · rw [if_neg hc]
      obtain ⟨g1, g2, g3⟩ := ih st h1 h2
      refine ⟨g1, g2, ?_⟩
      rw [List.filter_cons, if_neg (by simpa using hc)]
      exact g3

theorem map_cpAt_range (cps : List chP) :
    (List.range cps.length).map (fun (i : ℕ) => cpAt cps (i : ℤ)) = cps := by
  apply List.ext_getElem
  · rw [List.length_map, List.length_range]
  · intro i h1 h2
    rw [List.getElem_map, List.getElem_range]
    rw [cpAt, if_pos (Int.natCast_nonneg _), Int.toNat_natCast]
    exact List.getD_eq_getElem cps default h2

theorem range_two_extract (sz mN MN : ℕ) (hm : mN < sz) (hM : MN < sz)
    (hne : mN ≠ MN) :
    (List.range sz).Perm
      (mN :: MN :: ((List.range sz).filter
        (fun (x : ℕ) => decide (x ≠ mN) && decide (x ≠ MN)))) := by
  have h1 : (List.range sz).Perm (mN :: (List.range sz).erase mN) :=
    List.perm_cons_erase (List.mem_range.mpr hm)
  have hnd : ((List.range sz).erase mN).Nodup := (List.nodup_range sz).erase mN
  have hMm : MN ∈ (List.range sz).erase mN :=
    (List.mem_erase_of_ne (fun hh => hne hh.symm)).mpr (List.mem_range.mpr hM)
  have h2 : ((List.range sz).erase mN).Perm
      (MN :: (((List.range sz).erase mN).erase MN)) :=
    List.perm_cons_erase hMm
  have he1 : (List.range sz).erase mN =
      (List.range sz).filter (fun x => x != mN) :=
    (List.nodup_range sz).erase_eq_filter mN
  have he2 : (((List.range sz).erase mN).erase MN) =
      ((List.range sz).erase mN).filter (fun x => x != MN) :=
    hnd.erase_eq_filter MN
  have he3 : (((List.range sz).erase mN).erase MN) =
      (List.range sz).filter (fun (x : ℕ) => decide (x ≠ mN) && decide (x ≠ MN)) := by
    rw [he2, he1, List.filter_filter]
    refine List.filter_congr ?_
    intro x _
    by_cases hx1 : x = mN <;> by_cases hx2 : x = MN <;>
      simp [bne, hx1, hx2]
  refine h1.trans ?_
  rw [← he3]
  exact h2.cons mN

/-- C5: a successful `balance()` (one returning true) preserves the stored
leaves: the multiset of leaves of the rebuilt tree (each leaf's identity and
its phi/Rphi/A/L payload, i.e. everything but the node back-pointer) is
exactly the multiset of leaves of the old tree, and `size_` is unchanged;
only the node topology differs.  The side conditions say the tree is
consistent (`size_` equals the leaf count), the random generator respects the
`Random::integer(i, size-1)` range contract, and the two extreme-leaf
indices selected by the scan are genuine distinct stored-leaf indices. -/
theorem balance_conserves_leaves (cfg : BalCfg) (rnd : ℕ → ℕ) (t : BTree)
    (hlen : (leafListB t.root).length = t.size)
    (hrnd : ∀ i, i < t.size → rnd i < t.size)
    (h1 : 0 ≤ (balanceIds cfg t).1)
    (h1l : (balanceIds cfg t).1.toNat < t.size)
    (h2 : 0 ≤ (balanceIds cfg t).2)
    (h2l : (balanceIds cfg t).2.toNat < t.size)
    (hne : (balanceIds cfg t).1 ≠ (balanceIds cfg t).2)
    (hret : (balance cfg rnd t).2 = true) :
    List.Perm ((leafListB (balance cfg rnd t).1.root).map stripRef)
      ((leafListB t.root).map stripRef) ∧
    (balance cfg rnd t).1.size = t.size := by
  by_cases htr : cfg.minBalanceThreshold < (t.size : ℚ)
  case neg =>
    rw [balance.eq_def, if_neg htr] at hret
    simp at hret
  case pos =>
  have e1 : (((balanceIds cfg t).1.toNat : ℕ) : ℤ) = (balanceIds cfg t).1 :=
    Int.toNat_of_nonneg h1
  have e2 : (((balanceIds cfg t).2.toNat : ℕ) : ℤ) = (balanceIds cfg t).2 :=
    Int.toNat_of_nonneg h2
  have hneN : (balanceIds cfg t).2.toNat ≠ (balanceIds cfg t).1.toNat := by omega
  have hsize : (balance cfg rnd t).1.size = t.size := by
    rw [balance.eq_def, if_pos htr]
  have hroot : (balance cfg rnd t).1.root =
      ((fisherYates t.size rnd).foldl (fun (st : bn × ℕ) (idx : ℕ) =>
        if (idx : ℤ) ≠ (balanceIds cfg t).2 ∧ (idx : ℤ) ≠ (balanceIds cfg t).1 then
          (insertAtSearchB (cpAt (leafListB t.root) (idx : ℤ)).phi st.2
            (cpAt (leafListB t.root) (idx : ℤ)) st.1, st.2 + 1)
        else st) (balanceNewRoot cfg t, t.next + 1)).1 := by
    rw [balance.eq_def, if_pos htr]
  refine ⟨?_, hsize⟩
  rw [hroot]
  obtain ⟨-, -, hperm⟩ := foldIns_leaves (leafListB t.root)
    (balanceIds cfg t).2 (balanceIds cfg t).1 (fisherYates t.size rnd)
    (balanceNewRoot cfg t, t.next + 1) (sidesOK_mkNode _ _ _) rfl
  refine hperm.trans ?_
  have hnew0 : (leafListB (balanceNewRoot cfg t)).map stripRef =
      [stripRef (cpAt (leafListB t.root) (balanceIds cfg t).2),
       stripRef (cpAt (leafListB t.root) (balanceIds cfg t).1)] := rfl
  rw [hnew0]
  have hfperm : ((fisherYates t.size rnd).filter
        (fun (idx : ℕ) => decide ((idx : ℤ) ≠ (balanceIds cfg t).2 ∧
          (idx : ℤ) ≠ (balanceIds cfg t).1))).Perm
      ((List.range t.size).filter
        (fun (idx : ℕ) => decide ((idx : ℤ) ≠ (balanceIds cfg t).2 ∧
          (idx : ℤ) ≠ (balanceIds cfg t).1))) :=
    (fisherYates_perm t.size rnd hrnd).filter _
  have hfilters : ((List.range t.size).filter
        (fun (idx : ℕ) => decide ((idx : ℤ) ≠ (balanceIds cfg t).2 ∧
          (idx : ℤ) ≠ (balanceIds cfg t).1))) =
      ((List.range t.size).filter
        (fun (x : ℕ) => decide (x ≠ (balanceIds cfg t).2.toNat) &&
          decide (x ≠ (balanceIds cfg t).1.toNat))) := by
    refine List.filter_congr ?_
    intro x _
    have hiff : ((x : ℤ) ≠ (balanceIds cfg t).2 ∧
        (x : ℤ) ≠ (balanceIds cfg t).1) ↔
        (x ≠ (balanceIds cfg t).2.toNat ∧ x ≠ (balanceIds cfg t).1.toNat) := by
      omega
    rw [decide_eq_decide.mpr hiff]
    exact Bool.decide_and _ _
  have hrange := range_two_extract t.size (balanceIds cfg t).2.toNat
    (balanceIds cfg t).1.toNat h2l h1l hneN
  have hmap0 := map_cpAt_range (leafListB t.root)
  rw [hlen] at hmap0
  have hfin : ((List.range t.size).map
        (fun (idx : ℕ) => stripRef (cpAt (leafListB t.root) (idx : ℤ)))).Perm
      ((leafListB t.root).map stripRef) := by
    conv_rhs => rw [← hmap0]
    rw [List.map_map]
    exact List.Perm.refl _
  have hcons : (((balanceIds cfg t).2.toNat :: (balanceIds cfg t).1.toNat ::
        ((List.range t.size).filter
          (fun (x : ℕ) => decide (x ≠ (balanceIds cfg t).2.toNat) &&
            decide (x ≠ (balanceIds cfg t).1.toNat)))).map
        (fun (idx : ℕ) => stripRef (cpAt (leafListB t.root) (idx : ℤ)))) =
      stripRef (cpAt (leafListB t.root) (balanceIds cfg t).2) ::
      stripRef (cpAt (leafListB t.root) (balanceIds cfg t).1) ::
      (((List.range t.size).filter
          (fun (x : ℕ) => decide (x ≠ (balanceIds cfg t).2.toNat) &&
            decide (x ≠ (balanceIds cfg t).1.toNat))).map
        (fun (idx : ℕ) => stripRef (cpAt (leafListB t.root) (idx : ℤ)))) := by
    simp only [List.map_cons]
    rw [e2, e1]
  refine List.perm_append_comm.trans ?_
  refine List.Perm.trans ?_ hfin
  refine List.Perm.trans ?_ ((hrange.map
    (fun (idx : ℕ) => stripRef (cpAt (leafListB t.root) (idx : ℤ)))).symm)
  rw [hcons]
  have c2 : (((fisherYates t.size rnd).filter
        (fun (idx : ℕ) => decide ((idx : ℤ) ≠ (balanceIds cfg t).2 ∧
          (idx : ℤ) ≠ (balanceIds cfg t).1))).map
        (fun (idx : ℕ) => stripRef (cpAt (leafListB t.root) (idx : ℤ)))).Perm
      ((((List.range t.size).filter
          (fun (x : ℕ) => decide (x ≠ (balanceIds cfg t).2.toNat) &&
            decide (x ≠ (balanceIds cfg t).1.toNat)))).map
        (fun (idx : ℕ) => stripRef (cpAt (leafListB t.root) (idx : ℤ)))) := by
    rw [← hfilters]
    exact hfperm.map _
  exact (c2.cons _).cons _

def c5cfg : BalCfg := ⟨2, 1, 1, 35/100⟩

def c5a : chP := ⟨1, 40, [0, 1], [], [], []⟩

def c5b : chP := ⟨2, 40, [0, 4], [], [], []⟩

/-- A two-leaf tree on which `balance()` triggers and rebuilds. -/
def c5T : BTree :=
  { root := bn.mk 40 [] 0 (some c5a) (some c5b) bn.nil bn.nil
    size := 2, next := 41 }

theorem c5_ids : balanceIds c5cfg c5T = (1, 0) := by
  have hl : leafListB c5T.root = [c5a, c5b] := rfl
  have hd : balanceMaxDir c5cfg (leafListB c5T.root) c5T.size = 1 := by
    rw [hl]
    show balanceMaxDir c5cfg [c5a, c5b] 2 = 1
    norm_num [balanceMaxDir, balMean, balVars, sortedIndices, insVar, balLoop,
      List.enum, List.enumFrom, c5cfg, c5a, c5b, abs_lt]
  show findExtremes (leafListB c5T.root)
    (balanceMaxDir c5cfg (leafListB c5T.root) c5T.size) = (1, 0)
  rw [hd, hl]
  norm_num [findExtremes, extStep, phiAt, List.enum, List.enumFrom, c5a, c5b,
    GREAT]

theorem balance_conserves_leaves_witness :
    (balance c5cfg (fun i => i) c5T).2 = true ∧
    List.Perm ((leafListB (balance c5cfg (fun i => i) c5T).1.root).map stripRef)
      ((leafListB c5T.root).map stripRef) ∧
    (balance c5cfg (fun i => i) c5T).1.size = c5T.size := by
  have hret : (balance c5cfg (fun i => i) c5T).2 = true := by
    rw [balance.eq_def, if_pos (by norm_num [c5cfg, c5T] :
      c5cfg.minBalanceThreshold < ((c5T.size : ℕ) : ℚ))]
  have h := balance_conserves_leaves c5cfg (fun i => i) c5T rfl
    (fun i hi => hi)
    (by rw [c5_ids] <;> decide) (by rw [c5_ids] <;> decide)
    (by rw [c5_ids] <;> decide) (by rw [c5_ids] <;> decide)
    (by rw [c5_ids] <;> decide) hret
  exact ⟨hret, h⟩
